import Mathlib

/-!
Verification model of the global-state storage core of `dwerner/casper-node`:
a persistent, content-addressed Merkle-Patricia trie over an LMDB-backed
store, together with the state-provider facade in
`src/execution_engine/src/storage/global_state/lmdb.rs` and the
`state_get_keys_with_prefix` RPC handler in
`src/node/src/components/rpc_server/rpcs/state/retrieval.rs`.

The facade and the RPC handler are embedded from the source.  The trie
operations themselves (`read`, `write`, `put_trie`, `keys`,
`missing_descendant_trie_keys`, the commit engine) are declared and called
from the source tree but their bodies live outside it, so they are modelled
from the specification (sections 3, 4.3 and 4.4 of the spec), as indicated
by the `Modelled from the spec:` doc comments.

Modelling conventions:
* a byte is `Fin 256`; a key is an opaque 32-byte string and its trie
  address is that byte string itself (an injective, fixed-length stand-in
  for the Blake2b digest of the key's serialisation);
* the digest of a trie node is modelled as the node's canonical form
  itself (`trieHash := id`): the spec's arguments rely only on digests
  being collision-free, stable content identifiers, which an injective
  function models faithfully; store corruption is still representable,
  as a store entry whose key differs from the hash of its value;
* a store is an association list from digests to nodes; the trie store's
  `put` is insert-if-absent, matching content-addressed insertion.
-/

abbrev Byte := Fin 256

/-- An opaque typed key: per the spec it serialises deterministically and
its trie address is a fixed-length 32-byte digest of that serialisation.
We model the key directly by its 32-byte address. -/
def Key := { l : List Byte // l.length = 32 }

instance : DecidableEq Key := Subtype.instDecidableEq

/-- The 32-byte radix path of a key (its trie address). -/
def keyPath (k : Key) : List Byte := k.val

theorem keyPath_injective : Function.Injective keyPath := fun _ _ h => Subtype.ext h

theorem keyPath_length (k : Key) : (keyPath k).length = 32 := k.property

/-- An opaque stored value.  The commit engine's additive transforms need a
32-bit-integer view, so we distinguish an integer payload from raw bytes. -/
inductive Value where
  | int32 (n : ℤ)
  | blob (bs : List Byte)
deriving DecidableEq

/-- Modelled from the spec: a trie node is a leaf (carrying a decoded key
and value), an extension (a non-empty affix plus one child pointer), or a
branch (a 256-slot pointer block).  A pointer is tagged leaf/node (the
`Bool` field, `true` for a leaf pointer) and carries the child's digest.
Digests are modelled as the pointed-to node's canonical form itself, so a
pointer stores a `Trie` in its digest position. -/
inductive Trie where
  | leaf (k : Key) (v : Value)
  | ext (affix : List Byte) (tag : Bool) (target : Trie)
  | node (slots : List (Option (Bool × Trie)))

mutual

def trieBeq : Trie → Trie → Bool
  | .leaf k v, .leaf k' v' => decide (k = k') && decide (v = v')
  | .ext a g c, .ext a' g' c' => decide (a = a') && decide (g = g') && trieBeq c c'
  | .node pb, .node pb' => slotsBeq pb pb'
  | .leaf _ _, .ext _ _ _ => false
  | .leaf _ _, .node _ => false
  | .ext _ _ _, .leaf _ _ => false
  | .ext _ _ _, .node _ => false
  | .node _, .leaf _ _ => false
  | .node _, .ext _ _ _ => false

def slotsBeq : List (Option (Bool × Trie)) → List (Option (Bool × Trie)) → Bool
  | [], [] => true
  | none :: xs, none :: ys => slotsBeq xs ys
  | some (g, c) :: xs, some (g', c') :: ys =>
    decide (g = g') && trieBeq c c' && slotsBeq xs ys
  | [], _ :: _ => false
  | _ :: _, [] => false
  | none :: _, some _ :: _ => false
  | some _ :: _, none :: _ => false

end

mutual

theorem trieBeq_iff : (t t' : Trie) → (trieBeq t t' = true ↔ t = t')
  | .leaf k v, .leaf k' v' => by simp [trieBeq, Trie.leaf.injEq]
  | .ext a g c, .ext a' g' c' => by
    simp [trieBeq, Trie.ext.injEq, trieBeq_iff c c', and_assoc]
  | .node pb, .node pb' => by simp [trieBeq, Trie.node.injEq, slotsBeq_iff pb pb']
  | .leaf _ _, .ext _ _ _ => by simp [trieBeq]
  | .leaf _ _, .node _ => by simp [trieBeq]
  | .ext _ _ _, .leaf _ _ => by simp [trieBeq]
  | .ext _ _ _, .node _ => by simp [trieBeq]
  | .node _, .leaf _ _ => by simp [trieBeq]
  | .node _, .ext _ _ _ => by simp [trieBeq]

theorem slotsBeq_iff : (l l' : List (Option (Bool × Trie))) → (slotsBeq l l' = true ↔ l = l')
  | [], [] => by simp [slotsBeq]
  | none :: xs, none :: ys => by simp [slotsBeq, slotsBeq_iff xs ys]
  | some (g, c) :: xs, some (g', c') :: ys => by
    simp [slotsBeq, trieBeq_iff c c', slotsBeq_iff xs ys, and_assoc]
  | [], _ :: _ => by simp [slotsBeq]
  | _ :: _, [] => by simp [slotsBeq]
  | none :: _, some _ :: _ => by simp [slotsBeq]
  | some _ :: _, none :: _ => by simp [slotsBeq]

end

instance : DecidableEq Trie := fun t t' =>
  decidable_of_iff (trieBeq t t' = true) (trieBeq_iff t t')

/-- Modelled from the spec: digests are fixed-length cryptographic hashes
used purely as collision-free content identifiers; we model them by the
node's canonical form itself. -/
abbrev Digest := Trie

/-- Modelled from the spec: `digest(node) = hash(canonical_serialise(node))`
for a collision-resistant hash, modelled as an injective function of the
node (here, the identity on canonical forms). -/
def trieHash (t : Trie) : Digest := t

/-- A pointer as stored in a pointer block: leaf/node tag and child digest. -/
abbrev Ptr := Bool × Trie

def Trie.isLeafNode : Trie → Bool
  | .leaf _ _ => true
  | _ => false

def Trie.isExtNode : Trie → Bool
  | .ext _ _ _ => true
  | _ => false

/-- The pointer to a node: a leaf pointer for a leaf, a node pointer
otherwise, carrying the node's digest. -/
def ptrTo (t : Trie) : Ptr := (t.isLeafNode, trieHash t)

/-- The all-empty 256-slot pointer block. -/
def emptySlots : List (Option Ptr) := List.replicate 256 none

/-- The empty-root node: a branch with all-empty pointers. -/
def emptyTrie : Trie := .node emptySlots

/-- Slot of a pointer block at a byte index. -/
def getSlot (pb : List (Option Ptr)) (b : Byte) : Option Ptr :=
  (pb.get? b.val).getD none

/-- Replace the slot of a pointer block at a byte index. -/
def setSlot (pb : List (Option Ptr)) (b : Byte) (p : Ptr) : List (Option Ptr) :=
  pb.set b.val (some p)

/-- Smart extension constructor: collapses nested extensions and drops
empty affixes, as the spec's write algorithm requires ("two nested
extensions never occur (collapse during write)"). -/
def mkExt (affix : List Byte) (child : Trie) : Trie :=
  if affix = [] then child
  else
    match child with
    | .ext a2 tag tgt => .ext (affix ++ a2) tag tgt
    | c => .ext affix c.isLeafNode (trieHash c)

/-- The digests referenced by a node's pointers, in slot order. -/
def childDigests : Trie → List Digest
  | .leaf _ _ => []
  | .ext _ _ tgt => [tgt]
  | .node pb => pb.filterMap (fun s => s.map Prod.snd)

/-- The trie store: digest-keyed association list of serialised trie nodes. -/
abbrev Store := List (Digest × Trie)

/-- First-match lookup in a store. -/
def Store.find : Store → Digest → Option Trie
  | [], _ => none
  | (d', t) :: rest, d => if d = d' then some t else Store.find rest d

@[simp] theorem Store.find_nil (d : Digest) : Store.find [] d = none := rfl

@[simp] theorem Store.find_cons (d' : Digest) (t : Trie) (rest : Store) (d : Digest) :
    Store.find ((d', t) :: rest) d = if d = d' then some t else rest.find d := rfl

/-- Content-addressed insert-if-absent, the trie store's `put` /
`put_trie` primitive ("compute the node's digest, insert if absent"). -/
def Store.putNode (s : Store) (t : Trie) : Store :=
  match s.find (trieHash t) with
  | some _ => s
  | none => (trieHash t, t) :: s

/-- Insert a batch of freshly created nodes, content-addressed. -/
def Store.putAll (s : Store) : List Trie → Store
  | [] => s
  | t :: rest => (s.putNode t).putAll rest

/-- A store is well formed when every entry is content-addressed: the
binding key equals the hash of the stored node. -/
def WfStore (s : Store) : Prop := ∀ d t, s.find d = some t → trieHash t = d

/-- `putNode` keeps every existing binding (insert-if-absent never
shadows: the only possibly new key was absent). -/
theorem find_putNode_of_find (s : Store) (t : Trie) (d : Digest) (x : Trie)
    (h : s.find d = some x) : (s.putNode t).find d = some x := by
  unfold Store.putNode
  cases hf : s.find (trieHash t) with
  | some _ => exact h
  | none =>
    simp only [Store.find_cons]
    by_cases hd : d = trieHash t
    · rw [hd] at h; rw [hf] at h; exact absurd h (by simp)
    · simp [hd, h]

theorem find_putAll_of_find (s : Store) (l : List Trie) (d : Digest) (x : Trie)
    (h : s.find d = some x) : (s.putAll l).find d = some x := by
  induction l generalizing s with
  | nil => exact h
  | cons t rest ih => exact ih _ (find_putNode_of_find s t d x h)

theorem wfStore_putNode (s : Store) (t : Trie) (hs : WfStore s) :
    WfStore (s.putNode t) := by
  intro d x hx
  unfold Store.putNode at hx
  cases hf : s.find (trieHash t) with
  | some y => rw [hf] at hx; exact hs d x hx
  | none =>
    rw [hf] at hx
    simp only [Store.find_cons] at hx
    by_cases hd : d = trieHash t
    · simp [hd] at hx
      rw [← hx, hd]
    · simp [hd] at hx
      exact hs d x hx

theorem wfStore_putAll (s : Store) (l : List Trie) (hs : WfStore s) :
    WfStore (s.putAll l) := by
  induction l generalizing s with
  | nil => exact hs
  | cons t rest ih => exact ih _ (wfStore_putNode s t hs)

/-- In a well-formed store, inserting a node makes its digest resolve to
the node itself. -/
theorem find_putNode_self (s : Store) (t : Trie) (hs : WfStore s) :
    (s.putNode t).find (trieHash t) = some t := by
  unfold Store.putNode
  cases hf : s.find (trieHash t) with
  | some y =>
    rw [hf]
    have := hs _ _ hf
    simp only [trieHash] at this
    rw [this]
  | none => simp

theorem find_putAll_self (s : Store) (l : List Trie) (t : Trie) (hs : WfStore s)
    (ht : t ∈ l) : (s.putAll l).find (trieHash t) = some t := by
  induction l generalizing s with
  | nil => cases ht
  | cons a rest ih =>
    rcases List.mem_cons.mp ht with rfl | hmem
    · exact find_putAll_of_find _ rest _ t (find_putNode_self s t hs)
    · exact ih (s.putNode a) (wfStore_putNode s a hs) hmem

/-! ## Trie read (spec 4.3.1) -/

/-- Result of a trie-level read, per the spec:
`Found(value) | NotFound | RootNotFound`. -/
inductive ReadResult where
  | found (v : Value)
  | notFound
  | rootNotFound
deriving DecidableEq

/-- Modelled from the spec: the descent of `read` below the root.  Walk the
remaining address `r`: traverse branches by the next byte, skip extension
affixes that match the remaining address, stop at a leaf and compare keys.
Any mismatch or empty branch slot yields `notFound`.  A missing interior
node (impossible in a well-formed store) is also reported as `notFound`. -/
def readAt (s : Store) (t : Trie) (r : List Byte) (k : Key) : ReadResult :=
  match t with
  | .leaf k' v' => if k' = k then .found v' else .notFound
  | .ext affix _ tgt =>
    if h : affix ≠ [] ∧ affix.isPrefixOf r then
      match s.find tgt with
      | none => .notFound
      | some child => readAt s child (r.drop affix.length) k
    else .notFound
  | .node pb =>
    match r with
    | [] => .notFound
    | b :: r' =>
      match getSlot pb b with
      | none => .notFound
      | some (_, cd) =>
        match s.find cd with
        | none => .notFound
        | some child => readAt s child r' k
termination_by r.length
decreasing_by
  · have h1 : 0 < affix.length := List.length_pos.mpr h.1
    have h2 : affix.length ≤ r.length :=
      (List.isPrefixOf_iff_prefix.mp h.2).length_le
    simp only [List.length_drop]
    omega
  · simp

/-- Modelled from the spec: `read(txn, store, root, key)`.  A missing root
node yields `rootNotFound`; otherwise descend from the root node. -/
def readOp (s : Store) (root : Digest) (k : Key) : ReadResult :=
  match s.find root with
  | none => .rootNotFound
  | some t => readAt s t (keyPath k) k

/-! ## Trie write (spec 4.3.3) -/

/-- First index at which two byte strings differ, if any index of both
carries differing bytes. -/
def findDiff : List Byte → List Byte → Option Nat
  | [], _ => none
  | _ :: _, [] => none
  | a :: as, b :: bs => if a = b then (findDiff as bs).map (· + 1) else some 0

/-- The canonical representation of a one-key subtrie whose remaining
address is `r`: the leaf, wrapped in an extension carrying the full
remaining affix when `r` is non-empty (the spec's chosen canonical form). -/
def singletonTrie (r : List Byte) (k : Key) (v : Value) : Trie :=
  mkExt r (.leaf k v)

/-- The freshly created nodes of a one-key subtrie. -/
def singletonFresh (r : List Byte) (k : Key) (v : Value) : List Trie :=
  if r = [] then [Trie.leaf k v] else [singletonTrie r k v, Trie.leaf k v]

/-- Result of the recursive descent of `write`: the pair already present,
a structural failure (unreachable from a well-formed store), or an updated
subtree root together with every newly created node. -/
inductive WriteRes where
  | already
  | failed
  | upd (t' : Trie) (fresh : List Trie)
deriving DecidableEq

/-- Modelled from the spec: the descent of `write` below the root.
Descend as in `read`; at the first divergence construct the minimal set of
new nodes — a new leaf, an extension for a shared prefix, a branch at the
divergence byte, a tail extension for the split remainder — and rebuild
every ancestor with the updated child pointer.  Nested extensions are
collapsed by `mkExt`.  Returns the new subtree plus all nodes to insert. -/
def writeAt (s : Store) (t : Trie) (r : List Byte) (k : Key) (v : Value) : WriteRes :=
  match t with
  | .leaf k' v' =>
    if k' = k then
      if v' = v then .already else .upd (.leaf k v) [Trie.leaf k v]
    else .failed
  | .ext affix tag tgt =>
    if h : affix ≠ [] ∧ affix.isPrefixOf r then
      match s.find tgt with
      | none => .failed
      | some child =>
        match writeAt s child (r.drop affix.length) k v with
        | .already => .already
        | .failed => .failed
        | .upd c' fresh =>
          let e' := mkExt affix c'
          .upd e' (e' :: fresh)
    else
      match findDiff affix r with
      | none => .failed
      | some i =>
        match affix.get? i, r.get? i with
        | some ba, some br =>
          let tailAffix := affix.drop (i + 1)
          let oldPtr : Ptr :=
            if tailAffix = [] then (tag, tgt)
            else (false, trieHash (Trie.ext tailAffix tag tgt))
          let oldFresh : List Trie :=
            if tailAffix = [] then [] else [Trie.ext tailAffix tag tgt]
          let newRest := r.drop (i + 1)
          let branchNode :=
            Trie.node (setSlot (setSlot emptySlots ba oldPtr) br (ptrTo (singletonTrie newRest k v)))
          let top := mkExt (affix.take i) branchNode
          .upd top (top :: branchNode :: oldFresh ++ singletonFresh newRest k v)
        | _, _ => .failed
  | .node pb =>
    match r with
    | [] => .failed
    | b :: r' =>
      match getSlot pb b with
      | none =>
        let pb' := setSlot pb b (ptrTo (singletonTrie r' k v))
        .upd (.node pb') (Trie.node pb' :: singletonFresh r' k v)
      | some (_, cd) =>
        match s.find cd with
        | none => .failed
        | some child =>
          match writeAt s child r' k v with
          | .already => .already
          | .failed => .failed
          | .upd c' fresh =>
            let pb' := setSlot pb b (ptrTo c')
            .upd (.node pb') (Trie.node pb' :: fresh)
termination_by r.length
decreasing_by
  · have h1 : 0 < affix.length := List.length_pos.mpr h.1
    have h2 : affix.length ≤ r.length :=
      (List.isPrefixOf_iff_prefix.mp h.2).length_le
    simp only [List.length_drop]
    omega
  · simp

/-- Outcome of the top-level `write`, per the spec:
`Written(new_root) | AlreadyExists | RootNotFound`. -/
inductive WriteOutcome where
  | written (newRoot : Digest)
  | alreadyExists
  | rootNotFound
deriving DecidableEq

/-- Modelled from the spec: `write(txn, store, root, key, value)`.  Writing
into the empty-root branch creates a lone leaf wrapped in an extension of
full affix (the spec's canonical choice); otherwise descend and rebuild.
Every newly formed node is put into the store, content-addressed;
`AlreadyExists` allocates nothing and leaves the store untouched. -/
def write (s : Store) (root : Digest) (k : Key) (v : Value) : WriteOutcome × Store :=
  match s.find root with
  | none => (.rootNotFound, s)
  | some t =>
    if t = emptyTrie then
      (.written (trieHash (singletonTrie (keyPath k) k v)),
        s.putAll (singletonFresh (keyPath k) k v))
    else
      match writeAt s t (keyPath k) k v with
      | .already => (.alreadyExists, s)
      | .failed => (.rootNotFound, s)
      | .upd t' fresh => (.written (trieHash t'), s.putAll fresh)

/-! ## Missing-descendant detection (spec 4.3.6) -/

/-- Keys (digests) bound in a store, in order. -/
def Store.keysOf (s : Store) : List Digest := s.map Prod.fst

theorem mem_keysOf_of_find {s : Store} {d : Digest} {t : Trie}
    (h : s.find d = some t) : d ∈ s.keysOf := by
  induction s with
  | nil => simp at h
  | cons e rest ih =>
    obtain ⟨d', t'⟩ := e
    simp only [Store.find_cons] at h
    by_cases hd : d = d'
    · simp [Store.keysOf, hd]
    · simp only [hd, if_false] at h
      simp [Store.keysOf] at ih ⊢
      exact Or.inr (ih h)

/-- Count of store keys not yet visited: the termination measure of the
breadth-first worklist. -/
def unvisitedCount (s : Store) (visited : List Digest) : ℕ :=
  (s.keysOf.filter (fun d => decide (d ∉ visited))).length

theorem filter_length_mono {α : Type} (l : List α) (p q : α → Bool)
    (h : ∀ x, q x = true → p x = true) : (l.filter q).length ≤ (l.filter p).length := by
  induction l with
  | nil => simp
  | cons a rest ih =>
    by_cases hq : q a = true
    · simp [hq, h a hq]
      omega
    · have hq' : q a = false := by revert hq; cases q a <;> simp
      cases hp : p a <;> simp [hq', hp] <;> omega

theorem filter_length_strict {α : Type} (l : List α) (p q : α → Bool)
    (h : ∀ x, q x = true → p x = true) (x0 : α) (hx0 : x0 ∈ l)
    (hp0 : p x0 = true) (hq0 : q x0 = false) :
    (l.filter q).length < (l.filter p).length := by
  induction l with
  | nil => cases hx0
  | cons a rest ih =>
    rcases List.mem_cons.mp hx0 with rfl | hmem
    · have := filter_length_mono rest p q h
      simp [hp0, hq0]
      omega
    · by_cases hq : q a = true
      · have := ih hmem
        simp [hq, h a hq]
        omega
      · have hq' : q a = false := by revert hq; cases q a <;> simp
        have := ih hmem
        cases hp : p a <;> simp [hq', hp] <;> omega

theorem unvisitedCount_cons_le (s : Store) (d : Digest) (visited : List Digest) :
    unvisitedCount s (d :: visited) ≤ unvisitedCount s visited := by
  apply filter_length_mono
  intro x hx
  simp at hx ⊢
  exact hx.2

theorem unvisitedCount_cons_lt (s : Store) (d : Digest) (visited : List Digest)
    (hmem : d ∈ s.keysOf) (hnv : d ∉ visited) :
    unvisitedCount s (d :: visited) < unvisitedCount s visited := by
  apply filter_length_strict _ _ _ _ d hmem
  · simpa using hnv
  · simp
  · intro x hx
    simp at hx ⊢
    exact hx.2

theorem find_eq_none_iff (s : Store) (d : Digest) :
    s.find d = none ↔ d ∉ s.keysOf := by
  induction s with
  | nil => simp [Store.keysOf]
  | cons e rest ih =>
    obtain ⟨d', t'⟩ := e
    by_cases hd : d = d'
    · subst hd; simp [Store.keysOf]
    · simp [Store.keysOf, hd] at ih ⊢
      exact ih

theorem unvisitedCount_cons_eq (s : Store) (d : Digest) (visited : List Digest)
    (hmem : d ∉ s.keysOf) :
    unvisitedCount s (d :: visited) = unvisitedCount s visited := by
  unfold unvisitedCount
  congr 1
  apply List.filter_congr
  intro x hx
  have hxd : x ≠ d := fun h => hmem (h ▸ hx)
  simp [hxd]

/-- Modelled from the spec: the breadth-first worklist of
`missing_descendant_trie_keys`.  Pops a digest; if already visited it is
skipped (duplicates suppressed); if absent from the store it is recorded
missing; if present but its stored bytes do not hash back to the digest
(corruption) it is also recorded missing; a present node's children are
always enqueued.  Missing digests are returned in discovery order. -/
def mdtkLoop (s : Store) : List Digest → List Digest → List Digest → List Digest
  | _, missing, [] => missing.reverse
  | visited, missing, d :: rest =>
    if d ∈ visited then mdtkLoop s visited missing rest
    else
      match h : s.find d with
      | none => mdtkLoop s (d :: visited) (d :: missing) rest
      | some t =>
        mdtkLoop s (d :: visited)
          (if trieHash t = d then missing else d :: missing)
          (rest ++ childDigests t)
termination_by visited _ q => (unvisitedCount s visited, q.length)
decreasing_by
  · apply Prod.Lex.right
    simp
  · rcases Nat.lt_or_ge (unvisitedCount s (d :: visited)) (unvisitedCount s visited) with hlt | hge
    · exact Prod.Lex.left _ _ hlt
    · have : unvisitedCount s (d :: visited) = unvisitedCount s visited := by
        have := unvisitedCount_cons_le s d visited
        omega
      rw [this]
      apply Prod.Lex.right
      simp
  · apply Prod.Lex.left
    exact unvisitedCount_cons_lt s d visited (mem_keysOf_of_find h) (by assumption)

/-- Modelled from the spec: `missing_descendant_trie_keys(txn, store, root)`
returns every digest referenced transitively from `root` that has no
correctly hashed entry, in BFS discovery order with duplicates
suppressed; an absent root yields `[root]`. -/
def missingDescendantTrieKeys (s : Store) (root : Digest) : List Digest :=
  mdtkLoop s [] [] [root]

/-- Digests reachable from a root by following stored nodes' pointers
(through corrupt entries as well, since traversal uses the stored node). -/
inductive Reaches (s : Store) (root : Digest) : Digest → Prop where
  | refl : Reaches s root root
  | step {d t c} : Reaches s root d → s.find d = some t → c ∈ childDigests t →
      Reaches s root c

/-! ## Keys iterator (spec 4.3.4) -/

/-- Modelled from the spec: depth-first, in-slot-order enumeration of the
decoded keys of the leaves below a node.  Fuel-indexed; any fuel at least
twice the address length fully enumerates a canonical trie. -/
def keysAt (s : Store) : ℕ → Trie → List Key
  | _, .leaf k _ => [k]
  | 0, .ext _ _ _ => []
  | 0, .node _ => []
  | fuel + 1, .ext _ _ tgt =>
    match s.find tgt with
    | none => []
    | some child => keysAt s fuel child
  | fuel + 1, .node pb =>
    ((pb.filterMap id).map (fun pr =>
      match s.find pr.2 with
      | none => []
      | some child => keysAt s fuel child)).join

/-- Modelled from the spec: `keys(txn, store, root)` — the sequence of
decoded keys below `root`, in lexicographic address order. -/
def keysOp (s : Store) (root : Digest) : List Key :=
  match s.find root with
  | none => []
  | some t => keysAt s 65 t

/-! ## Proof-carrying read (spec 4.3.2) -/

/-- A proof step: the ancestor's shape — an extension's affix, or the full
pointer block with the traversed slot blanked out plus that slot's index. -/
inductive ProofStep where
  | extension (affix : List Byte)
  | nodeStep (blanked : List (Option Ptr)) (idx : Byte)
deriving DecidableEq

/-- Blank the traversed slot of a pointer block, as recorded in a proof. -/
def blankSlot (pb : List (Option Ptr)) (b : Byte) : List (Option Ptr) :=
  pb.set b.val none

/-- A Merkle inclusion proof: the leaf's key and value plus one step per
ancestor along the path, root-most step first. -/
structure TrieMerkleProof where
  key : Key
  value : Value
  steps : List ProofStep
deriving DecidableEq

/-- Modelled from the spec: the descent of `read_with_proof`, mirroring
`read` while recording each ancestor's shape. -/
def proofAt (s : Store) (t : Trie) (r : List Byte) (k : Key) :
    Option (Value × List ProofStep) :=
  match t with
  | .leaf k' v' => if k' = k then some (v', []) else none
  | .ext affix _ tgt =>
    if h : affix ≠ [] ∧ affix.isPrefixOf r then
      match s.find tgt with
      | none => none
      | some child =>
        (proofAt s child (r.drop affix.length) k).map
          (fun pr => (pr.1, .extension affix :: pr.2))
    else none
  | .node pb =>
    match r with
    | [] => none
    | b :: r' =>
      match getSlot pb b with
      | none => none
      | some (_, cd) =>
        match s.find cd with
        | none => none
        | some child =>
          (proofAt s child r' k).map
            (fun pr => (pr.1, .nodeStep (blankSlot pb b) b :: pr.2))
termination_by r.length
decreasing_by
  · have h1 : 0 < affix.length := List.length_pos.mpr h.1
    have h2 : affix.length ≤ r.length :=
      (List.isPrefixOf_iff_prefix.mp h.2).length_le
    simp only [List.length_drop]
    omega
  · simp

/-- Result of `read_with_proof`: the spec's three variants, with `Found`
carrying a `TrieMerkleProof`. -/
inductive ProofReadResult where
  | found (pf : TrieMerkleProof)
  | notFound
  | rootNotFound
deriving DecidableEq

/-- Modelled from the spec: `read_with_proof(txn, store, root, key)`. -/
def readWithProof (s : Store) (root : Digest) (k : Key) : ProofReadResult :=
  match s.find root with
  | none => .rootNotFound
  | some t =>
    match proofAt s t (keyPath k) k with
    | none => .notFound
    | some pr => .found ⟨k, pr.1, pr.2⟩

/-! ## Commit engine (spec 4.4) -/

/-- An opaque UUID-like observability token, threaded through every
operation and never consulted by the core. -/
abbrev CorrelationId := ℕ

/-- Modelled from the spec: a key-level transform.  `write` overwrites,
`identity` is a no-op, and the additive variants (represented here by
`addInt32`; `AddU64` etc. are analogous) are read-modify-write. -/
inductive Transform where
  | write (v : Value)
  | identity
  | addInt32 (n : ℤ)
deriving DecidableEq

/-- Commit-time transform failures (spec section 7). -/
inductive TransformError where
  | typeMismatch
  | overflow
  | keyNotFound
deriving DecidableEq

/-- Modelled from the spec: apply a transform to the current value at a
key.  A non-`write` transform against an absent key is `keyNotFound`;
additive transforms fail with `typeMismatch` on a non-numeric value and
with `overflow` outside the 32-bit signed range. -/
def applyTransform : Transform → Option Value → Except TransformError Value
  | .write v, _ => .ok v
  | .identity, some v => .ok v
  | .identity, none => .error .keyNotFound
  | .addInt32 n, some (.int32 m) =>
    if -(2 ^ 31) ≤ m + n ∧ m + n < 2 ^ 31 then .ok (.int32 (m + n))
    else .error .overflow
  | .addInt32 _, some (.blob _) => .error .typeMismatch
  | .addInt32 _, none => .error .keyNotFound

/-- Result of a state-level commit: success with the new state root, a
missing prestate root, or a structured transform failure naming the
offending key. -/
inductive CommitResult where
  | rootNotFound
  | transformFailure (k : Key) (e : TransformError)
  | success (stateRoot : Digest)
deriving DecidableEq

/-- Modelled from the spec: the commit fold.  For each `(key, transform)`
in iteration order: read the current value at `key`, apply the transform,
write the result, threading the evolving root.  The first failure aborts.
A root that vanishes mid-fold is impossible in a well-formed store and is
modelled as a `keyNotFound` failure. -/
def commitGo (s : Store) (root : Digest) :
    List (Key × Transform) → Except (Key × TransformError) (Store × Digest)
  | [] => .ok (s, root)
  | (k, tf) :: rest =>
    let cur : Option Value :=
      match readOp s root k with
      | .found v => some v
      | _ => none
    match applyTransform tf cur with
    | .error e => .error (k, e)
    | .ok v =>
      match write s root k v with
      | (.written r', s') => commitGo s' r' rest
      | (.alreadyExists, _) => commitGo s root rest
      | (.rootNotFound, _) => .error (k, .keyNotFound)

/-- Modelled from the spec: `commit(env, store, correlation_id,
prestate_root, effects)`.  Checks the prestate root exists, folds the
effects, commits the transaction only on success (on failure the original
store is kept — no partial subtree appears).  The correlation id is never
consulted. -/
def commitOp (_cid : CorrelationId) (s : Store) (prestate : Digest)
    (effects : List (Key × Transform)) : CommitResult × Store :=
  match s.find prestate with
  | none => (.rootNotFound, s)
  | some _ =>
    match commitGo s prestate effects with
    | .ok (s', r') => (.success r', s')
    | .error (k, e) => (.transformFailure k e, s)

/-! ## State-provider facade (`lmdb.rs`) -/

/-- Per-protocol-version configuration payload (opaque). -/
abbrev ProtocolData := List Byte

/-- A protocol version (opaque ordered identifier). -/
abbrev ProtocolVersion := ℕ

/-- `LmdbGlobalState`: the environment's two sub-stores plus the
empty-root hash, as in `lmdb.rs`. -/
structure LmdbGlobalState where
  trieStore : Store
  protocolDataStore : List (ProtocolVersion × ProtocolData)
  emptyRootHash : Digest

/-- `LmdbGlobalStateView`: a reader bound to a root hash. -/
structure LmdbGlobalStateView where
  rootHash : Digest

/-- Outcome of a facade read: `Ok(Option<StoredValue>)`, or the process
abort taken when a reader view sees `RootNotFound`
(`panic!("LmdbGlobalState has invalid root")` in `lmdb.rs`). -/
inductive FacadeRead where
  | ok (v : Option Value)
  | panicked
deriving DecidableEq

/-- `LmdbGlobalStateView::read`: open a read-only transaction, run the
trie read at the view's root, panic on `RootNotFound`. -/
def stateRead (g : LmdbGlobalState) (view : LmdbGlobalStateView)
    (_cid : CorrelationId) (k : Key) : FacadeRead × LmdbGlobalState :=
  (match readOp g.trieStore view.rootHash k with
    | .found v => .ok (some v)
    | .notFound => .ok none
    | .rootNotFound => .panicked, g)

/-- Outcome of a facade `read_with_proof`. -/
inductive FacadeProofRead where
  | ok (pf : Option TrieMerkleProof)
  | panicked
deriving DecidableEq

/-- `LmdbGlobalStateView::read_with_proof`: as `read`, with a proof. -/
def stateReadWithProof (g : LmdbGlobalState) (view : LmdbGlobalStateView)
    (_cid : CorrelationId) (k : Key) : FacadeProofRead × LmdbGlobalState :=
  (match readWithProof g.trieStore view.rootHash k with
    | .found pf => .ok (some pf)
    | .notFound => .ok none
    | .rootNotFound => .panicked, g)

/-- `LmdbGlobalStateView::read_trie`: fetch a raw trie node if present. -/
def stateReadTrie (g : LmdbGlobalState) (_view : LmdbGlobalStateView)
    (_cid : CorrelationId) (trieKey : Digest) : Option Trie × LmdbGlobalState :=
  (g.trieStore.find trieKey, g)

/-- `LmdbGlobalState::checkout`: look the root up in the trie store; absent
roots give `None`, present roots give a reader bound to that root. -/
def checkout (g : LmdbGlobalState) (stateHash : Digest) :
    Option LmdbGlobalStateView × LmdbGlobalState :=
  (match g.trieStore.find stateHash with
    | none => none
    | some _ => some ⟨stateHash⟩, g)

/-- `LmdbGlobalState::commit`: delegate to the commit engine. -/
def stateCommit (g : LmdbGlobalState) (cid : CorrelationId) (prestate : Digest)
    (effects : List (Key × Transform)) : CommitResult × LmdbGlobalState :=
  match commitOp cid g.trieStore prestate effects with
  | (res, s') => (res, { g with trieStore := s' })

/-- `LmdbGlobalState::put_trie`: content-addressed insert of one node. -/
def statePutTrie (g : LmdbGlobalState) (_cid : CorrelationId) (t : Trie) :
    Unit × LmdbGlobalState :=
  ((), { g with trieStore := g.trieStore.putNode t })

/-- `LmdbGlobalState::missing_descendant_trie_keys`. -/
def stateMissingDescendantTrieKeys (g : LmdbGlobalState) (_cid : CorrelationId)
    (trieKey : Digest) : List Digest × LmdbGlobalState :=
  (missingDescendantTrieKeys g.trieStore trieKey, g)

/-- Association-list lookup in the protocol-data store. -/
def pdFind : List (ProtocolVersion × ProtocolData) → ProtocolVersion → Option ProtocolData
  | [], _ => none
  | (pv', d) :: rest, pv => if pv = pv' then some d else pdFind rest pv

/-- `LmdbGlobalState::get_protocol_data`. -/
def getProtocolData (g : LmdbGlobalState) (pv : ProtocolVersion) :
    Option ProtocolData × LmdbGlobalState :=
  (pdFind g.protocolDataStore pv, g)

/-- `LmdbGlobalState::put_protocol_data`: overwrites the entry for the
version. -/
def putProtocolData (g : LmdbGlobalState) (pv : ProtocolVersion)
    (d : ProtocolData) : Unit × LmdbGlobalState :=
  ((), { g with protocolDataStore := (pv, d) :: g.protocolDataStore })

/-- `LmdbGlobalState::empty_root`. -/
def emptyRoot (g : LmdbGlobalState) : Digest × LmdbGlobalState :=
  (g.emptyRootHash, g)

/-! ## The `state_get_keys_with_prefix` RPC handler
(`rpc_server/rpcs/state/retrieval.rs` and `rpcs/state.rs`, embedded from
the source) -/

/-- The storage-side reply to a `GetKeysWithPrefix` request
(`query::GetKeysWithPrefixResult`). -/
inductive GetKeysWithPrefixResult where
  | success (keys : List Key)
  | rootNotFound
deriving DecidableEq

/-- The JSON-RPC error codes used by the handler. -/
inductive RpcErrorCode where
  | parseGetKeysPrefix
deriving DecidableEq

/-- What the handler produces: a success response, a structured error
response, or a process panic (the `todo!()` branches). -/
inductive RpcResponse where
  | success (keys : List Key)
  | errorResponse (code : RpcErrorCode)
  | panicked
deriving DecidableEq

/-- `GetKeysWithPrefix::handle_request`, embedded from the source: a prefix
that fails hex-decoding yields a structured `ParseGetKeysPrefix` error;
a successful storage reply yields a success response; the storage replies
`RootNotFound` and `Err(_)` both hit `todo!()`, i.e. the handler panics.
`decodedParam` is the result of `hex::decode(params.prefix)`;
`storageReply` is the effect-builder round trip. -/
def handleGetKeysWithPrefix (decodedParam : Option (List Byte))
    (storageReply : Except Unit GetKeysWithPrefixResult) : RpcResponse :=
  match decodedParam with
  | none => .errorResponse .parseGetKeysPrefix
  | some _ =>
    match storageReply with
    | .ok (.success ks) => .success ks
    | .ok .rootNotFound => .panicked
    | .error _ => .panicked

/-! ## Canonical representation predicate

`Canon s p t m` states that node `t`, stored content-addressed in `s`,
is the canonical trie (per the spec's invariants in section 3 and the
canonical-form choice of 4.3.3) for the finite key-value map `m`, sitting
at consumed address prefix `p`. -/

/-- The empty key-value map. -/
def emptyMap : Key → Option Value := fun _ => none

/-- The one-key map. -/
def singleMap (k : Key) (v : Value) : Key → Option Value :=
  fun k' => if k' = k then some v else none

/-- Point update of a key-value map. -/
def updMap (m : Key → Option Value) (k : Key) (v : Value) : Key → Option Value :=
  fun k' => if k' = k then some v else m k'

/-- Restriction of a map to the keys whose address extends `q`. -/
def subAt (m : Key → Option Value) (q : List Byte) : Key → Option Value :=
  fun k => if q <+: keyPath k then m k else none

inductive Canon (s : Store) : List Byte → Trie → (Key → Option Value) → Prop where
  | leaf (k : Key) (v : Value) : Canon s (keyPath k) (.leaf k v) (singleMap k v)
  | ext (p affix : List Byte) (tag : Bool) (child : Trie) (m : Key → Option Value)
      (haff : affix ≠ [])
      (hfind : s.find child = some child)
      (htag : tag = child.isLeafNode)
      (hshape : child.isExtNode = false)
      (hchild : Canon s (p ++ affix) child m) :
      Canon s p (.ext affix tag child) m
  | branch (p : List Byte) (pb : List (Option Ptr)) (m : Key → Option Value)
      (hlen : pb.length = 256)
      (hdepth : p.length < 32)
      (htwo : ∃ b1 b2 : Byte, b1 ≠ b2 ∧ getSlot pb b1 ≠ none ∧ getSlot pb b2 ≠ none)
      (hcover : ∀ k, m k ≠ none → ∃ b : Byte, (p ++ [b]) <+: keyPath k ∧ getSlot pb b ≠ none)
      (hne : ∀ (b : Byte) (pr : Ptr), getSlot pb b = some pr → ∃ k, subAt m (p ++ [b]) k ≠ none)
      (hfind : ∀ (b : Byte) (pr : Ptr), getSlot pb b = some pr → s.find pr.2 = some pr.2)
      (htag : ∀ (b : Byte) (pr : Ptr), getSlot pb b = some pr → pr.1 = pr.2.isLeafNode)
      (hchild : ∀ (b : Byte) (pr : Ptr), getSlot pb b = some pr →
        Canon s (p ++ [b]) pr.2 (subAt m (p ++ [b]))) :
      Canon s p (.node pb) m

/-- Root-level canonical representation: either the empty root (an
all-empty branch representing the empty map) or a canonical non-empty
trie, in both cases stored content-addressed under its own hash. -/
def RootCanon (s : Store) (root : Digest) (m : Key → Option Value) : Prop :=
  (root = emptyTrie ∧ s.find root = some root ∧ m = emptyMap) ∨
  (s.find root = some root ∧ Canon s [] root m)

/-! ### Prefix toolkit -/

theorem prefix_append_iff {p q l : List Byte} (hp : p <+: l) :
    (p ++ q) <+: l ↔ q <+: l.drop p.length := by
  obtain ⟨r, rfl⟩ := hp
  rw [List.drop_left]
  constructor
  · rintro ⟨t, ht⟩
    rw [List.append_assoc] at ht
    exact ⟨t, List.append_cancel_left ht⟩
  · rintro ⟨t, ht⟩
    exact ⟨t, by rw [List.append_assoc, ht]⟩

theorem prefix_snoc_iff {p : List Byte} {b : Byte} {l : List Byte} :
    (p ++ [b]) <+: l ↔ p <+: l ∧ l.get? p.length = some b := by
  constructor
  · intro h
    have hp : p <+: l := (List.prefix_append p [b]).trans h
    refine ⟨hp, ?_⟩
    obtain ⟨r, rfl⟩ := h
    rw [List.append_assoc, List.get?_append_right (Nat.le_refl _)]
    simp
  · rintro ⟨hp, hb⟩
    rw [prefix_append_iff hp]
    obtain ⟨r, rfl⟩ := hp
    rw [List.get?_append_right (Nat.le_refl _)] at hb
    simp at hb
    rcases r with _ | ⟨a, r'⟩
    · simp at hb
    · simp at hb
      subst hb
      exact ⟨r', by simp⟩

theorem prefix_snoc_same {p : List Byte} {b b' : Byte} {l : List Byte}
    (h1 : (p ++ [b]) <+: l) (h2 : (p ++ [b']) <+: l) : b = b' := by
  rw [prefix_snoc_iff] at h1 h2
  have := h1.2.symm.trans h2.2
  simpa using this

theorem prefix_eq_of_length {p l : List Byte} (h : p <+: l)
    (hlen : p.length = l.length) : p = l :=
  List.IsPrefix.eq_of_length h hlen

/-! ### Basic facts about `Canon` -/

theorem Canon.support {s : Store} {p : List Byte} {t : Trie} {m : Key → Option Value}
    (h : Canon s p t m) : ∀ k, m k ≠ none → p <+: keyPath k := by
  induction h with
  | leaf k v =>
    intro k' hk'
    unfold singleMap at hk'
    by_cases he : k' = k
    · subst he; exact List.prefix_refl _
    · simp [he] at hk'
  | ext p affix tag child m haff hfind htag hshape hchild ih =>
    intro k hk
    exact (List.prefix_append p affix).trans (ih k hk)
  | branch p pb m hlen hdepth htwo hcover hne hfind htag hchild ih =>
    intro k hk
    obtain ⟨b, hb, _⟩ := hcover k hk
    exact (List.prefix_append p [b]).trans hb

theorem Canon.nonempty {s : Store} {p : List Byte} {t : Trie} {m : Key → Option Value}
    (h : Canon s p t m) : ∃ k, m k ≠ none := by
  induction h with
  | leaf k v => exact ⟨k, by simp [singleMap]⟩
  | ext p affix tag child m haff hfind htag hshape hchild ih => exact ih
  | branch p pb m hlen hdepth htwo hcover hne hfind htag hchild ih =>
    obtain ⟨b1, b2, hne12, h1, h2⟩ := htwo
    obtain ⟨pr, hpr⟩ := Option.ne_none_iff_exists'.mp h1
    obtain ⟨k, hk⟩ := hne b1 pr hpr
    refine ⟨k, ?_⟩
    unfold subAt at hk
    by_cases hpre : (p ++ [b1]) <+: keyPath k
    · simpa [hpre] using hk
    · simp [hpre] at hk

theorem Canon.depth_le {s : Store} {p : List Byte} {t : Trie} {m : Key → Option Value}
    (h : Canon s p t m) : p.length ≤ 32 := by
  induction h with
  | leaf k v => simp [keyPath_length]
  | ext p affix tag child m haff hfind htag hshape hchild ih =>
    have := ih
    simp at this
    omega
  | branch p pb m hlen hdepth htwo hcover hne hfind htag hchild ih => omega

theorem Canon.mono {s s' : Store}
    (hsub : ∀ d x, s.find d = some x → s'.find d = some x)
    {p : List Byte} {t : Trie} {m : Key → Option Value}
    (h : Canon s p t m) : Canon s' p t m := by
  induction h with
  | leaf k v => exact Canon.leaf k v
  | ext p affix tag child m haff hfind htag hshape hchild ih =>
    exact Canon.ext p affix tag child m haff (hsub _ _ hfind) htag hshape ih
  | branch p pb m hlen hdepth htwo hcover hne hfind htag hchild ih =>
    exact Canon.branch p pb m hlen hdepth htwo hcover hne
      (fun b pr hpr => hsub _ _ (hfind b pr hpr)) htag ih

theorem subAt_eq_of_prefix {m : Key → Option Value} {q : List Byte} {k : Key}
    (h : q <+: keyPath k) : subAt m q k = m k := by
  simp [subAt, h]

theorem subAt_eq_none {m : Key → Option Value} {q : List Byte} {k : Key}
    (h : ¬ q <+: keyPath k) : subAt m q k = none := by
  simp [subAt, h]

/-! ### Read correctness -/

theorem drop_cons_split {k : Key} {p : List Byte} (hlt : p.length < 32)
    (hpre : p <+: keyPath k) :
    ∃ b0 r', (keyPath k).drop p.length = b0 :: r' ∧
      (p ++ [b0]) <+: keyPath k ∧
      r' = (keyPath k).drop (p ++ [b0]).length := by
  have hlen : ((keyPath k).drop p.length).length = 32 - p.length := by
    simp [keyPath_length]
  have hne : (keyPath k).drop p.length ≠ [] := by
    intro hnil
    rw [hnil] at hlen
    simp at hlen
    omega
  obtain ⟨b0, r', hsplit⟩ := List.exists_cons_of_ne_nil hne
  refine ⟨b0, r', hsplit, ?_, ?_⟩
  · have hget : (keyPath k).get? p.length = some b0 := by
      have h0 : ((keyPath k).drop p.length).get? 0 = some b0 := by rw [hsplit]; rfl
      rw [List.get?_drop] at h0
      simpa using h0
    rw [prefix_snoc_iff]
    exact ⟨hpre, hget⟩
  · have : (keyPath k).drop (p.length + 1) = ((keyPath k).drop p.length).drop 1 := by
      rw [List.drop_drop, Nat.add_comm]
    simp [this, hsplit]

theorem readAt_correct {s : Store} {p : List Byte} {t : Trie} {m : Key → Option Value}
    (h : Canon s p t m) (k : Key) :
    p <+: keyPath k →
    readAt s t ((keyPath k).drop p.length) k =
      (match m k with | some v => ReadResult.found v | none => ReadResult.notFound) := by
  induction h with
  | leaf k0 v0 =>
    intro hpre
    have hkeq : keyPath k0 = keyPath k :=
      prefix_eq_of_length hpre (by simp [keyPath_length])
    have : k0 = k := keyPath_injective hkeq
    subst this
    simp [readAt, singleMap]
  | ext p affix tag child m haff hfind htag hshape hchild ih =>
    intro hpre
    rw [readAt]
    by_cases hx : affix <+: (keyPath k).drop p.length
    · rw [dif_pos ⟨haff, List.isPrefixOf_iff_prefix.mpr hx⟩]
      rw [hfind]
      have hpre' : (p ++ affix) <+: keyPath k := (prefix_append_iff hpre).mpr hx
      have hdrop : ((keyPath k).drop p.length).drop affix.length =
          (keyPath k).drop (p ++ affix).length := by
        rw [List.drop_drop]
        simp [Nat.add_comm]
      rw [hdrop]
      exact ih hpre'
    · rw [dif_neg (by rintro ⟨_, hpf⟩; exact hx (List.isPrefixOf_iff_prefix.mp hpf))]
      have hmk : m k = none := by
        by_contra hmk
        have := hchild.support k hmk
        exact hx ((prefix_append_iff hpre).mp this)
      rw [hmk]
  | branch p pb m hlen hdepth htwo hcover hne hfind htag hchild ih =>
    intro hpre
    obtain ⟨b0, r', hsplit, hsnoc, hr'⟩ := drop_cons_split hdepth hpre
    rw [hsplit, readAt]
    cases hslot : getSlot pb b0 with
    | none =>
      have hmk : m k = none := by
        by_contra hmk
        obtain ⟨b, hb, hbne⟩ := hcover k hmk
        have : b = b0 := prefix_snoc_same hb hsnoc
        rw [this, hslot] at hbne
        exact hbne rfl
      rw [hmk]
    | some pr =>
      obtain ⟨tg, cd⟩ := pr
      dsimp only
      rw [show s.find cd = some cd from hfind b0 (tg, cd) hslot]
      rw [hr']
      rw [← subAt_eq_of_prefix (m := m) hsnoc]
      exact ih b0 (tg, cd) hslot hsnoc

theorem getSlot_emptySlots (b : Byte) : getSlot emptySlots b = none := by
  unfold getSlot emptySlots
  cases h : (List.replicate 256 (none : Option Ptr)).get? b.val with
  | none => rfl
  | some x =>
    have hmem := List.get?_mem h
    have hx : x = none := List.eq_of_mem_replicate hmem
    rw [hx]
    rfl

theorem readAt_emptyTrie (s : Store) (k : Key) :
    readAt s emptyTrie (keyPath k) k = .notFound := by
  obtain ⟨b0, r', hsplit, _, _⟩ :=
    drop_cons_split (k := k) (p := []) (by simp) List.nil_prefix
  simp only [List.length_nil, List.drop_zero] at hsplit
  unfold emptyTrie
  rw [hsplit, readAt, getSlot_emptySlots]

/-- Reading any key of a canonically represented root returns exactly the
represented map's value. -/
theorem read_correct {s : Store} {root : Digest} {m : Key → Option Value}
    (h : RootCanon s root m) (k : Key) :
    readOp s root k =
      (match m k with | some v => ReadResult.found v | none => ReadResult.notFound) := by
  rcases h with ⟨hroot, hfind, hm⟩ | ⟨hfind, hc⟩
  · unfold readOp
    rw [hfind, hroot]
    dsimp only
    rw [readAt_emptyTrie, hm]
    rfl
  · unfold readOp
    rw [hfind]
    have := readAt_correct hc k List.nil_prefix
    simpa using this

/-! ### Canonicity: a map has at most one canonical representation -/

theorem subAt_ne_none_iff {m : Key → Option Value} {q : List Byte} {k : Key} :
    subAt m q k ≠ none ↔ q <+: keyPath k ∧ m k ≠ none := by
  unfold subAt
  by_cases h : q <+: keyPath k <;> simp [h]

theorem prefix_get?_eq {l1 l2 : List Byte} (h : l1 <+: l2) {i : ℕ}
    (hi : i < l1.length) : l2.get? i = l1.get? i := by
  obtain ⟨r, rfl⟩ := h
  exact List.get?_append hi

/-- A canonical branch represents at least two keys, which diverge right
at position `p.length`. -/
theorem Canon.branch_two {s : Store} {p : List Byte} {pb : List (Option Ptr)}
    {m : Key → Option Value} (h : Canon s p (.node pb) m) :
    ∃ (k1 k2 : Key) (b1 b2 : Byte), b1 ≠ b2 ∧
      m k1 ≠ none ∧ m k2 ≠ none ∧
      (p ++ [b1]) <+: keyPath k1 ∧ (p ++ [b2]) <+: keyPath k2 := by
  cases h with
  | branch p pb m hlen hdepth htwo hcover hne hfind htag hchild =>
    obtain ⟨b1, b2, hb12, h1, h2⟩ := htwo
    obtain ⟨pr1, hpr1⟩ := Option.ne_none_iff_exists'.mp h1
    obtain ⟨pr2, hpr2⟩ := Option.ne_none_iff_exists'.mp h2
    obtain ⟨k1, hk1⟩ := hne b1 pr1 hpr1
    obtain ⟨k2, hk2⟩ := hne b2 pr2 hpr2
    rw [subAt_ne_none_iff] at hk1 hk2
    exact ⟨k1, k2, b1, b2, hb12, hk1.2, hk2.2, hk1.1, hk2.1⟩

/-- The support of a canonical extension extends the whole affix. -/
theorem Canon.ext_support {s : Store} {p affix : List Byte} {tag : Bool}
    {child : Trie} {m : Key → Option Value}
    (h : Canon s p (.ext affix tag child) m) :
    ∀ k, m k ≠ none → (p ++ affix) <+: keyPath k := by
  cases h with
  | ext p affix tag child m haff hfind htag hshape hchild =>
    exact fun k hk => hchild.support k hk

/-- A canonical branch cannot represent a map whose support all extends a
non-trivial further affix. -/
theorem branch_vs_ext {s : Store} {p : List Byte} {pb : List (Option Ptr)}
    {m : Key → Option Value} {affix' : List Byte}
    (hbr : Canon s p (.node pb) m) (haff' : affix' ≠ [])
    (hsup' : ∀ k, m k ≠ none → (p ++ affix') <+: keyPath k) : False := by
  obtain ⟨k1, k2, b1, b2, hb12, hm1, hm2, hp1, hp2⟩ := hbr.branch_two
  obtain ⟨a0, arest, haeq⟩ := List.exists_cons_of_ne_nil haff'
  have hsub1 : (p ++ [a0]) <+: keyPath k1 := by
    have := hsup' k1 hm1
    rw [haeq] at this
    calc p ++ [a0] <+: p ++ a0 :: arest := ⟨arest, by simp⟩
    _ <+: keyPath k1 := this
  have hsub2 : (p ++ [a0]) <+: keyPath k2 := by
    have := hsup' k2 hm2
    rw [haeq] at this
    calc p ++ [a0] <+: p ++ a0 :: arest := ⟨arest, by simp⟩
    _ <+: keyPath k2 := this
  have e1 : b1 = a0 := prefix_snoc_same hp1 hsub1
  have e2 : b2 = a0 := prefix_snoc_same hp2 hsub2
  exact hb12 (e1.trans e2.symm)

theorem canon_leaf_inv {s : Store} {q : List Byte} {k0 : Key} {v0 : Value}
    {m : Key → Option Value} (h : Canon s q (.leaf k0 v0) m) :
    q = keyPath k0 ∧ m = singleMap k0 v0 := by
  cases h
  exact ⟨rfl, rfl⟩

theorem canon_ext_inv {s : Store} {q affix : List Byte} {tag : Bool} {child : Trie}
    {m : Key → Option Value} (h : Canon s q (.ext affix tag child) m) :
    affix ≠ [] ∧ s.find child = some child ∧ tag = child.isLeafNode ∧
      child.isExtNode = false ∧ Canon s (q ++ affix) child m := by
  cases h with
  | ext _ _ _ _ _ haff hfind htag hshape hchild =>
    exact ⟨haff, hfind, htag, hshape, hchild⟩

/-- A canonical non-extension child below affix `affix` rules out the same
map being canonically represented below a strictly longer affix. -/
theorem ext_affix_no_longer {s : Store} {p affix affix' : List Byte}
    {child : Trie} {m : Key → Option Value}
    (hchild : Canon s (p ++ affix) child m)
    (hshape : child.isExtNode = false)
    (hsup' : ∀ k, m k ≠ none → (p ++ affix') <+: keyPath k)
    (hlt : affix.length < affix'.length) : False := by
  cases child with
  | leaf k0 v0 =>
    obtain ⟨hq, hm⟩ := canon_leaf_inv hchild
    have hm0 : m k0 ≠ none := by simp [hm, singleMap]
    have hlen := (hsup' k0 hm0).length_le
    rw [keyPath_length] at hlen
    have h32 : p.length + affix.length = 32 := by
      have := congrArg List.length hq
      simpa [keyPath_length] using this
    simp at hlen
    omega
  | ext affix2 tag2 child2 => simp [Trie.isExtNode] at hshape
  | node pb =>
    obtain ⟨k1, k2, b1, b2, hb12, hm1, hm2, hp1, hp2⟩ := hchild.branch_two
    have hqlen : (p ++ affix).length < (p ++ affix').length := by
      simp
      omega
    obtain ⟨c, hc⟩ : ∃ c, (p ++ affix').get? (p ++ affix).length = some c := by
      rw [List.get?_eq_get hqlen]
      exact ⟨_, rfl⟩
    have key_byte : ∀ (kk : Key) (bb : Byte), m kk ≠ none →
        ((p ++ affix) ++ [bb]) <+: keyPath kk → bb = c := by
      intro kk bb hmk hpref
      have h1 : (keyPath kk).get? (p ++ affix).length = some bb :=
        (prefix_snoc_iff.mp hpref).2
      have h2 : (keyPath kk).get? (p ++ affix).length = some c := by
        rw [prefix_get?_eq (hsup' kk hmk) hqlen]
        exact hc
      rw [h1] at h2
      simpa using h2
    exact hb12 ((key_byte k1 b1 hm1 hp1).trans (key_byte k2 b2 hm2 hp2).symm)

theorem canon_branch_inv {s : Store} {q : List Byte} {pb : List (Option Ptr)}
    {m : Key → Option Value} (h : Canon s q (.node pb) m) :
    pb.length = 256 ∧ q.length < 32 ∧
      (∀ k, m k ≠ none → ∃ b : Byte, (q ++ [b]) <+: keyPath k ∧ getSlot pb b ≠ none) ∧
      (∀ (b : Byte) (pr : Ptr), getSlot pb b = some pr → ∃ k, subAt m (q ++ [b]) k ≠ none) ∧
      (∀ (b : Byte) (pr : Ptr), getSlot pb b = some pr → s.find pr.2 = some pr.2) ∧
      (∀ (b : Byte) (pr : Ptr), getSlot pb b = some pr → pr.1 = pr.2.isLeafNode) ∧
      (∀ (b : Byte) (pr : Ptr), getSlot pb b = some pr →
        Canon s (q ++ [b]) pr.2 (subAt m (q ++ [b]))) := by
  cases h with
  | branch _ _ _ hlen hdepth htwo hcover hne hfind htag hchild =>
    exact ⟨hlen, hdepth, hcover, hne, hfind, htag, hchild⟩

theorem get?_eq_getSlot {pb : List (Option Ptr)} (hlen : pb.length = 256) (b : Byte) :
    pb.get? b.val = some (getSlot pb b) := by
  unfold getSlot
  cases h : pb.get? b.val with
  | none =>
    exfalso
    rw [List.get?_eq_none] at h
    have := b.isLt
    omega
  | some x => rfl

theorem prefix_prefix_eq {l1 l2 l : List Byte} (h1 : l1 <+: l) (h2 : l2 <+: l)
    (hlen : l1.length = l2.length) : l1 = l2 := by
  obtain ⟨r1, hr1⟩ := h1
  obtain ⟨r2, hr2⟩ := h2
  have := hr1.trans hr2.symm
  exact List.append_inj_left this hlen

/-- Canonicity: a key-value map has at most one canonical trie
representation at a given address prefix, across any pair of stores. -/
theorem canon_unique {s : Store} {p : List Byte} {t : Trie} {m : Key → Option Value}
    (h : Canon s p t m) : ∀ {s' : Store} {t' : Trie}, Canon s' p t' m → t = t' := by
  induction h with
  | leaf k v =>
    intro s' t' h'
    cases t' with
    | leaf k' v' =>
      obtain ⟨hq, hm⟩ := canon_leaf_inv h'
      have hk : k = k' := keyPath_injective hq
      subst hk
      have := congrFun hm k
      simp [singleMap] at this
      rw [this]
    | ext affix' tag' child' =>
      obtain ⟨haff', _, _, _, hchild'⟩ := canon_ext_inv h'
      have hm0 : singleMap k v k ≠ none := by simp [singleMap]
      have hlen := (hchild'.support k hm0).length_le
      simp [keyPath_length] at hlen
      exact absurd hlen haff'
    | node pb' =>
      obtain ⟨k1, k2, b1, b2, hb12, hm1, hm2, hp1, hp2⟩ := Canon.branch_two h'
      have hk1 : k1 = k := by
        by_contra hne
        simp [singleMap, hne] at hm1
      have hk2 : k2 = k := by
        by_contra hne
        simp [singleMap, hne] at hm2
      subst hk1; subst hk2
      exact absurd (prefix_snoc_same hp1 hp2) hb12
  | ext p affix tag child m haff hfind htag hshape hchild ih =>
    intro s' t' h'
    cases t' with
    | leaf k' v' =>
      obtain ⟨hq, hm⟩ := canon_leaf_inv h'
      subst hq
      have hm0 : m k' ≠ none := by simp [hm, singleMap]
      have hlen := (hchild.support k' hm0).length_le
      simp [keyPath_length] at hlen
      exact absurd hlen haff
    | ext affix' tag' child' =>
      obtain ⟨haff', hfind', htag', hshape', hchild'⟩ := canon_ext_inv h'
      rcases Nat.lt_trichotomy affix.length affix'.length with hlt | heq | hgt
      · exact (ext_affix_no_longer hchild hshape hchild'.support hlt).elim
      · obtain ⟨k0, hk0⟩ := hchild.nonempty
        have h1 := hchild.support k0 hk0
        have h2 := hchild'.support k0 hk0
        have hpe : p ++ affix = p ++ affix' :=
          prefix_prefix_eq h1 h2 (by simp [heq])
        have haffeq : affix = affix' := List.append_cancel_left hpe
        subst haffeq
        have hcc : child = child' := ih hchild'
        subst hcc
        rw [htag, htag']
      · exact (ext_affix_no_longer hchild' hshape' hchild.support hgt).elim
    | node pb' =>
      exact (branch_vs_ext h' haff hchild.support).elim
  | branch p pb m hlen hdepth htwo hcover hne hfind htag hchild ih =>
    intro s' t' h'
    have hb : Canon s p (Trie.node pb) m :=
      Canon.branch p pb m hlen hdepth htwo hcover hne hfind htag hchild
    cases t' with
    | leaf k' v' =>
      obtain ⟨hq, hm⟩ := canon_leaf_inv h'
      obtain ⟨k1, k2, b1, b2, hb12, hm1, hm2, hp1, hp2⟩ := hb.branch_two
      have hk1 : k1 = k' := by
        by_contra hc
        simp [hm, singleMap, hc] at hm1
      have hk2 : k2 = k' := by
        by_contra hc
        simp [hm, singleMap, hc] at hm2
      subst hk1; subst hk2
      exact absurd (prefix_snoc_same hp1 hp2) hb12
    | ext affix' tag' child' =>
      obtain ⟨haff', _, _, _, hchild'⟩ := canon_ext_inv h'
      exact (branch_vs_ext hb haff' hchild'.support).elim
    | node pb' =>
      obtain ⟨hlen', _, hcover', hne', _, htag', hchild'⟩ := canon_branch_inv h'
      have hsl : ∀ b : Byte, getSlot pb b = getSlot pb' b := by
        intro b
        cases hx : getSlot pb b with
        | none =>
          cases hy : getSlot pb' b with
          | none => rfl
          | some pr' =>
            exfalso
            obtain ⟨k1, hk1⟩ := hne' b pr' hy
            rw [subAt_ne_none_iff] at hk1
            obtain ⟨b2, hb2, hb2slot⟩ := hcover k1 hk1.2
            have : b2 = b := prefix_snoc_same hb2 hk1.1
            rw [this, hx] at hb2slot
            exact hb2slot rfl
        | some pr =>
          cases hy : getSlot pb' b with
          | none =>
            exfalso
            obtain ⟨k1, hk1⟩ := hne b pr hx
            rw [subAt_ne_none_iff] at hk1
            obtain ⟨b2, hb2, hb2slot⟩ := hcover' k1 hk1.2
            have : b2 = b := prefix_snoc_same hb2 hk1.1
            rw [this, hy] at hb2slot
            exact hb2slot rfl
          | some pr' =>
            have hc2 : pr.2 = pr'.2 := ih b pr hx (hchild' b pr' hy)
            have ht1 := htag b pr hx
            have ht2 := htag' b pr' hy
            have : pr = pr' := by
              apply Prod.ext
              · rw [ht1, ht2, hc2]
              · exact hc2
            rw [this]
      have : pb = pb' := by
        apply List.ext
        intro i
        by_cases hi : i < 256
        · have hb := hsl ⟨i, hi⟩
          rw [get?_eq_getSlot hlen ⟨i, hi⟩, get?_eq_getSlot hlen' ⟨i, hi⟩, hb]
        · rw [List.get?_eq_none.mpr (by omega), List.get?_eq_none.mpr (by omega)]
      rw [this]

/-! ### Toolkit for write correctness -/

@[simp] theorem trieHash_eq (t : Trie) : trieHash t = t := rfl

theorem setSlot_length (pb : List (Option Ptr)) (b : Byte) (x : Ptr) :
    (setSlot pb b x).length = pb.length := by
  unfold setSlot
  exact List.length_set pb b.val (some x)

theorem getSlot_setSlot {pb : List (Option Ptr)} (hlen : pb.length = 256)
    (b b' : Byte) (x : Ptr) :
    getSlot (setSlot pb b x) b' = if b' = b then some x else getSlot pb b' := by
  unfold getSlot setSlot
  by_cases hb : b' = b
  · subst hb
    rw [if_pos rfl]
    rw [List.get?_set_eq]
    have : pb.get? b'.val = some (getSlot pb b') := get?_eq_getSlot hlen b'
    rw [this]
    rfl
  · rw [if_neg hb]
    have hv : b.val ≠ b'.val := by
      intro hc
      exact hb (Fin.ext hc).symm
    rw [List.get?_set_ne _ _ hv]

theorem wf_find_eq {s : Store} (hs : WfStore s) {d x : Digest}
    (h : s.find d = some x) : x = d := hs d x h

theorem find_putNode_presence (s : Store) (t : Trie) (d : Digest) :
    (s.putNode t).find d ≠ none ↔ s.find d ≠ none ∨ d = t := by
  unfold Store.putNode
  cases hf : s.find (trieHash t) with
  | some y =>
    simp only [trieHash_eq] at hf
    constructor
    · intro h; exact Or.inl h
    · rintro (h | rfl)
      · exact h
      · simp [hf]
  | none =>
    simp only [Store.find_cons, trieHash_eq]
    by_cases hd : d = t
    · subst hd; simp
    · simp [hd]

theorem find_putAll_presence (s : Store) (l : List Trie) (d : Digest) :
    (s.putAll l).find d ≠ none ↔ s.find d ≠ none ∨ d ∈ l := by
  induction l generalizing s with
  | nil => simp [Store.putAll]
  | cons t rest ih =>
    show ((s.putNode t).putAll rest).find d ≠ none ↔ _
    rw [ih, find_putNode_presence]
    constructor
    · rintro ((h | h) | h)
      · exact Or.inl h
      · exact Or.inr (by simp [h])
      · exact Or.inr (by simp [h])
    · rintro (h | h)
      · exact Or.inl (Or.inl h)
      · rcases List.mem_cons.mp h with rfl | hm
        · exact Or.inl (Or.inr rfl)
        · exact Or.inr hm

theorem mono_of_presence {s1 s2 : Store} (h1 : WfStore s1) (h2 : WfStore s2)
    (hpres : ∀ d, s1.find d ≠ none → s2.find d ≠ none) :
    ∀ d x, s1.find d = some x → s2.find d = some x := by
  intro d x h
  have hx : x = d := wf_find_eq h1 h
  have hne : s2.find d ≠ none := hpres d (by simp [h])
  cases hy : s2.find d with
  | none => exact absurd hy hne
  | some y =>
    have : y = d := wf_find_eq h2 hy
    rw [this, hx]

/-- Lift a binding of `s.putAll fresh` into `(s.putNode e).putAll fresh`. -/
theorem lift_putNode_putAll {s : Store} (hs : WfStore s) (e : Trie) (fresh : List Trie) :
    ∀ d x, (s.putAll fresh).find d = some x → ((s.putNode e).putAll fresh).find d = some x := by
  apply mono_of_presence (wfStore_putAll s fresh hs)
    (wfStore_putAll _ fresh (wfStore_putNode s e hs))
  intro d h
  rw [find_putAll_presence] at h ⊢
  rcases h with h | h
  · left
    rw [find_putNode_presence]
    exact Or.inl h
  · exact Or.inr h

theorem findDiff_spec : ∀ (as bs : List Byte), as.length ≤ bs.length → ¬ as <+: bs →
    ∃ i, findDiff as bs = some i ∧ as.take i = bs.take i ∧ i < as.length ∧ i < bs.length ∧
      as.get? i ≠ bs.get? i
  | [], bs, _, hpre => absurd List.nil_prefix hpre
  | _ :: _, [], hlen, _ => by simp at hlen
  | a :: as, b :: bs, hlen, hpre => by
    by_cases hab : a = b
    · subst hab
      have hpre' : ¬ as <+: bs := by
        intro h
        obtain ⟨r, hr⟩ := h
        exact hpre ⟨r, by simp [hr]⟩
      have hlen' : as.length ≤ bs.length := by simpa using hlen
      obtain ⟨i, hfd, htake, hlt1, hlt2, hget⟩ := findDiff_spec as bs hlen' hpre'
      refine ⟨i + 1, ?_, ?_, by simpa using hlt1, by simpa using hlt2, by simpa using hget⟩
      · unfold findDiff
        rw [if_pos rfl, hfd]
        rfl
      · simp [List.take_succ_cons, htake]
    · refine ⟨0, ?_, by simp, by simp, by simp, by simpa using hab⟩
      unfold findDiff
      rw [if_neg hab]

theorem take_snoc_get {l : List Byte} {i : ℕ} {c : Byte} (h : l.get? i = some c) :
    l.take (i + 1) = l.take i ++ [c] := by
  have h' : l[i]? = some c := by rw [← List.get?_eq_getElem?]; exact h
  rw [List.take_succ, h']
  rfl

theorem take_append_get_drop {l : List Byte} {i : ℕ} {c : Byte} (h : l.get? i = some c) :
    l.take i ++ c :: l.drop (i + 1) = l := by
  have h1 : l.take (i + 1) ++ l.drop (i + 1) = l := List.take_append_drop _ _
  rw [take_snoc_get h] at h1
  simpa using h1

theorem subAt_full {m : Key → Option Value} {q : List Byte}
    (h : ∀ k, m k ≠ none → q <+: keyPath k) : subAt m q = m := by
  funext k
  unfold subAt
  by_cases hq : q <+: keyPath k
  · rw [if_pos hq]
  · rw [if_neg hq]
    by_cases hk : m k = none
    · rw [hk]
    · exact absurd (h k hk) hq

theorem subAt_updMap_other {m : Key → Option Value} {q : List Byte} {k : Key} {v : Value}
    (h : ¬ q <+: keyPath k) : subAt (updMap m k v) q = subAt m q := by
  funext k1
  unfold subAt updMap
  by_cases hq : q <+: keyPath k1
  · rw [if_pos hq, if_pos hq]
    by_cases hk : k1 = k
    · subst hk; exact absurd hq h
    · rw [if_neg hk]
  · rw [if_neg hq, if_neg hq]

theorem updMap_self {m : Key → Option Value} {k : Key} {v : Value}
    (h : m k = some v) : updMap m k v = m := by
  funext k1
  unfold updMap
  by_cases hk : k1 = k
  · subst hk; rw [if_pos rfl, h]
  · rw [if_neg hk]

theorem updMap_singleMap {k : Key} {v0 v : Value} :
    updMap (singleMap k v0) k v = singleMap k v := by
  funext k1
  unfold updMap singleMap
  by_cases hk : k1 = k <;> simp [hk]

/-- No canonical representation is the empty-root node. -/
theorem canon_emptyTrie_false {s : Store} {p : List Byte} {m : Key → Option Value}
    (h : Canon s p emptyTrie m) : False := by
  cases h with
  | branch _ _ _ hlen hdepth htwo hcover hne hfind htag hchild =>
    obtain ⟨b1, _, _, h1, _⟩ := htwo
    exact h1 (getSlot_emptySlots b1)

/-- Canonical representation of a one-key subtrie. -/
theorem canon_singleton {s2 : Store} {q rest : List Byte} {k : Key} {v : Value}
    (hqr : q ++ rest = keyPath k)
    (hleaf : s2.find (Trie.leaf k v) = some (Trie.leaf k v)) :
    Canon s2 q (singletonTrie rest k v) (singleMap k v) := by
  unfold singletonTrie mkExt
  by_cases hrest : rest = []
  · subst hrest
    simp at hqr
    rw [if_pos rfl]
    rw [hqr]
    exact Canon.leaf k v
  · rw [if_neg hrest]
    have : Canon s2 (q ++ rest) (Trie.leaf k v) (singleMap k v) := by
      rw [hqr]; exact Canon.leaf k v
    exact Canon.ext q rest _ _ _ hrest hleaf rfl rfl this

/-- Wrap a canonical non-extension child in an extension via `mkExt`. -/
theorem canon_mkExt {s2 : Store} {p a : List Byte} {c : Trie} {mm : Key → Option Value}
    (hshape : c.isExtNode = false) (hfind : s2.find c = some c)
    (hch : Canon s2 (p ++ a) c mm) : Canon s2 p (mkExt a c) mm := by
  by_cases ha : a = []
  · subst ha
    unfold mkExt
    rw [if_pos rfl]
    simpa using hch
  · unfold mkExt
    rw [if_neg ha]
    cases c with
    | leaf k0 v0 => exact Canon.ext p a _ _ _ ha hfind rfl rfl hch
    | ext _ _ _ => simp [Trie.isExtNode] at hshape
    | node pb => exact Canon.ext p a _ _ _ ha hfind rfl rfl hch

theorem emptySlots_length : emptySlots.length = 256 := by
  unfold emptySlots
  exact List.length_replicate 256 none

theorem subAt_upd_same {m : Key → Option Value} {q2 : List Byte} {k : Key} {v : Value}
    (hk : q2 <+: keyPath k) :
    subAt (updMap m k v) q2 = updMap (subAt m q2) k v := by
  funext k1
  unfold subAt updMap
  by_cases he : k1 = k
  · subst he
    simp [hk]
  · by_cases hq : q2 <+: keyPath k1 <;> simp [he, hq]

theorem subAt_upd_single {m : Key → Option Value} {q2 : List Byte} {k : Key} {v : Value}
    (hk : q2 <+: keyPath k)
    (hnone : ∀ k1, m k1 ≠ none → ¬ q2 <+: keyPath k1) :
    subAt (updMap m k v) q2 = singleMap k v := by
  funext k1
  unfold subAt updMap singleMap
  by_cases he : k1 = k
  · subst he
    simp [hk]
  · simp only [he, if_false]
    by_cases hq : q2 <+: keyPath k1
    · rw [if_pos hq]
      by_cases hm : m k1 = none
      · rw [hm]
      · exact absurd hq (hnone k1 hm)
    · rw [if_neg hq]

theorem mem_singletonFresh_self (r : List Byte) (k : Key) (v : Value) :
    singletonTrie r k v ∈ singletonFresh r k v := by
  unfold singletonFresh
  by_cases hr : r = []
  · subst hr
    simp [singletonTrie, mkExt]
  · simp [hr]

theorem mem_singletonFresh_leaf (r : List Byte) (k : Key) (v : Value) :
    Trie.leaf k v ∈ singletonFresh r k v := by
  unfold singletonFresh
  by_cases hr : r = [] <;> simp [hr]

/-- Construct the canonical two-slot branch of a split. -/
theorem canon_branch2 {s2 : Store} {q : List Byte} {ba br : Byte} {tOld tNew : Trie}
    {mOld mNew mm : Key → Option Value}
    (hne_b : ba ≠ br) (hqlen : q.length < 32)
    (hOldC : Canon s2 (q ++ [ba]) tOld mOld)
    (hOldF : s2.find tOld = some tOld)
    (hNewC : Canon s2 (q ++ [br]) tNew mNew)
    (hNewF : s2.find tNew = some tNew)
    (hsubOld : subAt mm (q ++ [ba]) = mOld)
    (hsubNew : subAt mm (q ++ [br]) = mNew)
    (hcov : ∀ k1, mm k1 ≠ none → (q ++ [ba]) <+: keyPath k1 ∨ (q ++ [br]) <+: keyPath k1) :
    Canon s2 q
      (.node (setSlot (setSlot emptySlots ba (ptrTo tOld)) br (ptrTo tNew))) mm := by
  have hlen1 : (setSlot emptySlots ba (ptrTo tOld)).length = 256 := by
    rw [setSlot_length, emptySlots_length]
  have hlen2 : (setSlot (setSlot emptySlots ba (ptrTo tOld)) br (ptrTo tNew)).length = 256 := by
    rw [setSlot_length, hlen1]
  have hslot : ∀ b : Byte,
      getSlot (setSlot (setSlot emptySlots ba (ptrTo tOld)) br (ptrTo tNew)) b =
        if b = br then some (ptrTo tNew)
        else if b = ba then some (ptrTo tOld) else none := by
    intro b
    rw [getSlot_setSlot hlen1 br b (ptrTo tNew)]
    by_cases hb : b = br
    · rw [if_pos hb, if_pos hb]
    · rw [if_neg hb, if_neg hb]
      rw [getSlot_setSlot emptySlots_length ba b (ptrTo tOld)]
      by_cases hb2 : b = ba
      · rw [if_pos hb2, if_pos hb2]
      · rw [if_neg hb2, if_neg hb2, getSlot_emptySlots]
  apply Canon.branch q _ mm hlen2 hqlen
  · refine ⟨ba, br, hne_b, ?_, ?_⟩
    · rw [hslot ba, if_neg hne_b, if_pos rfl]
      simp
    · rw [hslot br, if_pos rfl]
      simp
  · intro k1 hk1
    rcases hcov k1 hk1 with hc | hc
    · refine ⟨ba, hc, ?_⟩
      rw [hslot ba, if_neg hne_b, if_pos rfl]
      simp
    · refine ⟨br, hc, ?_⟩
      rw [hslot br, if_pos rfl]
      simp
  · intro b pr hpr
    rw [hslot b] at hpr
    by_cases hb : b = br
    · subst hb
      obtain ⟨k1, hk1⟩ := hNewC.nonempty
      exact ⟨k1, by rw [hsubNew]; exact hk1⟩
    · rw [if_neg hb] at hpr
      by_cases hb2 : b = ba
      · subst hb2
        obtain ⟨k1, hk1⟩ := hOldC.nonempty
        exact ⟨k1, by rw [hsubOld]; exact hk1⟩
      · rw [if_neg hb2] at hpr
        cases hpr
  · intro b pr hpr
    rw [hslot b] at hpr
    by_cases hb : b = br
    · rw [if_pos hb] at hpr
      cases hpr
      exact hNewF
    · rw [if_neg hb] at hpr
      by_cases hb2 : b = ba
      · rw [if_pos hb2] at hpr
        cases hpr
        exact hOldF
      · rw [if_neg hb2] at hpr
        cases hpr
  · intro b pr hpr
    rw [hslot b] at hpr
    by_cases hb : b = br
    · rw [if_pos hb] at hpr
      cases hpr
      rfl
    · rw [if_neg hb] at hpr
      by_cases hb2 : b = ba
      · rw [if_pos hb2] at hpr
        cases hpr
        rfl
      · rw [if_neg hb2] at hpr
        cases hpr
  · intro b pr hpr
    rw [hslot b] at hpr
    by_cases hb : b = br
    · subst hb
      rw [if_pos rfl] at hpr
      cases hpr
      rw [hsubNew]
      exact hNewC
    · rw [if_neg hb] at hpr
      by_cases hb2 : b = ba
      · subst hb2
        rw [if_pos rfl] at hpr
        cases hpr
        rw [hsubOld]
        exact hOldC
      · rw [if_neg hb2] at hpr
        cases hpr

theorem getSlot_setSlot_preserve {pb : List (Option Ptr)} (hlen : pb.length = 256)
    {b0 b : Byte} {x : Ptr} (h : getSlot pb b ≠ none) :
    getSlot (setSlot pb b0 x) b ≠ none := by
  rw [getSlot_setSlot hlen]
  by_cases hb : b = b0 <;> simp [hb, h]

/-- Correctness of the recursive descent of `write`: on a canonical
subtrie it either reports the pair as already present, or returns the
canonical subtrie of the updated map together with the nodes to insert. -/
theorem writeAt_correct {s : Store} {p : List Byte} {t : Trie} {m : Key → Option Value}
    (hs : WfStore s) (h : Canon s p t m) (k : Key) (v : Value) :
    p <+: keyPath k →
    ((m k = some v → writeAt s t ((keyPath k).drop p.length) k v = .already) ∧
     (m k ≠ some v → ∃ t' fresh, writeAt s t ((keyPath k).drop p.length) k v = .upd t' fresh ∧
       t' ∈ fresh ∧ (t.isExtNode = false → t'.isExtNode = false) ∧
       Canon (s.putAll fresh) p t' (updMap m k v))) := by
  induction h with
  | leaf k0 v0 =>
    intro hpre
    have hkeq : keyPath k0 = keyPath k :=
      prefix_eq_of_length hpre (by simp [keyPath_length])
    have hk : k0 = k := keyPath_injective hkeq
    subst hk
    constructor
    · intro hmk
      have hv : v0 = v := by simpa [singleMap] using hmk
      subst hv
      rw [writeAt]
      simp
    · intro hmk
      have hv : ¬ (v0 = v) := by
        intro hc
        subst hc
        exact hmk (by simp [singleMap])
      refine ⟨Trie.leaf k0 v, [Trie.leaf k0 v], ?_, by simp, ?_, ?_⟩
      · rw [writeAt]
        simp [hv]
      · intro _
        simp [Trie.isExtNode]
      · rw [updMap_singleMap]
        exact Canon.leaf k0 v
  | ext p affix tag child m haff hfind htag hshape hchild ih =>
    intro hpre
    obtain ⟨rr, hrr⟩ := hpre
    have hpre : p <+: keyPath k := ⟨rr, hrr⟩
    have hdropr : (keyPath k).drop p.length = rr := by
      rw [← hrr, List.drop_left]
    by_cases hx : affix <+: rr
    · -- the affix matches: descend into the child
      have hpre' : (p ++ affix) <+: keyPath k := by
        rw [prefix_append_iff hpre, hdropr]
        exact hx
      have hdrop2 : rr.drop affix.length = (keyPath k).drop (p ++ affix).length := by
        rw [← hdropr, List.drop_drop]
        simp [Nat.add_comm]
      have ihh := ih hpre'
      constructor
      · intro hmk
        rw [hdropr, writeAt, dif_pos ⟨haff, List.isPrefixOf_iff_prefix.mpr hx⟩, hfind]
        dsimp only
        rw [hdrop2, ihh.1 hmk]
      · intro hmk
        obtain ⟨c', fresh, heq, hmem, hshape', hC⟩ := ihh.2 hmk
        have hcsh : c'.isExtNode = false := hshape' (by
          cases child with
          | leaf _ _ => rfl
          | ext _ _ _ => simp [Trie.isExtNode] at hshape
          | node _ => rfl)
        refine ⟨mkExt affix c', mkExt affix c' :: fresh, ?_, by simp, ?_, ?_⟩
        · rw [hdropr, writeAt, dif_pos ⟨haff, List.isPrefixOf_iff_prefix.mpr hx⟩, hfind]
          dsimp only
          rw [hdrop2, heq]
        · intro hfalse
          simp [Trie.isExtNode] at hfalse
        · have hCl : Canon ((s.putNode (mkExt affix c')).putAll fresh) (p ++ affix) c'
              (updMap m k v) := hC.mono (lift_putNode_putAll hs _ fresh)
          have hfind' : (s.putAll (mkExt affix c' :: fresh)).find c' = some c' :=
            find_putAll_self s _ c' hs (by simp [hmem])
          exact canon_mkExt hcsh hfind' hCl
    · -- divergence inside the affix: split head + branch + tails
      have hmnone : m k = none := by
        by_contra hc
        have hsup := hchild.support k hc
        rw [prefix_append_iff hpre, hdropr] at hsup
        exact hx hsup
      have hlenle : affix.length ≤ rr.length := by
        have hd := hchild.depth_le
        simp only [List.length_append] at hd
        have hrl : p.length + rr.length = 32 := by
          have := congrArg List.length hrr
          simpa [keyPath_length] using this
        omega
      obtain ⟨i, hfd, htake, hlt1, hlt2, hget⟩ := findDiff_spec affix rr hlenle hx
      obtain ⟨ba, hba⟩ : ∃ ba, affix.get? i = some ba := by
        rw [List.get?_eq_get hlt1]; exact ⟨_, rfl⟩
      obtain ⟨br, hbr⟩ : ∃ br, rr.get? i = some br := by
        rw [List.get?_eq_get hlt2]; exact ⟨_, rfl⟩
      have hbane : ba ≠ br := by
        intro hc
        rw [hba, hbr, hc] at hget
        exact hget rfl
      constructor
      · intro hmk
        rw [hmnone] at hmk
        cases hmk
      · intro _
        have haffdec : affix.take i ++ ba :: affix.drop (i + 1) = affix :=
          take_append_get_drop hba
        have hrrdec : rr.take i ++ br :: rr.drop (i + 1) = rr :=
          take_append_get_drop hbr
        have hqeq : p ++ affix = (p ++ affix.take i) ++ ba :: affix.drop (i + 1) := by
          rw [List.append_assoc, haffdec]
        have hqbr_full : ((p ++ affix.take i) ++ [br]) ++ rr.drop (i + 1) = keyPath k := by
          rw [htake]
          rw [show ((p ++ rr.take i) ++ [br]) ++ rr.drop (i + 1) =
            p ++ (rr.take i ++ br :: rr.drop (i + 1)) from by simp]
          rw [hrrdec, hrr]
        have hqk : ((p ++ affix.take i) ++ [br]) <+: keyPath k := ⟨rr.drop (i + 1), hqbr_full⟩
        have hq_ba_pre : ((p ++ affix.take i) ++ [ba]) <+: (p ++ affix) :=
          ⟨affix.drop (i + 1), by rw [hqeq]; simp⟩
        have hsupp : ∀ k1, m k1 ≠ none → ((p ++ affix.take i) ++ [ba]) <+: keyPath k1 :=
          fun k1 h1 => hq_ba_pre.trans (hchild.support k1 h1)
        have hnotk_ba : ¬ ((p ++ affix.take i) ++ [ba]) <+: keyPath k :=
          fun hc => hbane (prefix_snoc_same hc hqk)
        have hnot_m_br : ∀ k1, m k1 ≠ none → ¬ ((p ++ affix.take i) ++ [br]) <+: keyPath k1 :=
          fun k1 h1 hc => hbane (prefix_snoc_same (hsupp k1 h1) hc)
        have hqlen : (p ++ affix.take i).length < 32 := by
          have hd := hchild.depth_le
          simp only [List.length_append] at hd
          simp only [List.length_append, List.length_take]
          omega
        -- the implementation's pieces
        set tailAffix := affix.drop (i + 1) with htaildef
        set newRest := rr.drop (i + 1) with hnewdef
        set tNew := singletonTrie newRest k v with htnewdef
        set oldPtr : Ptr :=
          (if tailAffix = [] then (tag, child)
           else (false, trieHash (Trie.ext tailAffix tag child))) with holdptrdef
        set oldFresh : List Trie :=
          (if tailAffix = [] then ([] : List Trie)
           else [Trie.ext tailAffix tag child]) with holdfreshdef
        set branchNode :=
          Trie.node (setSlot (setSlot emptySlots ba oldPtr) br (ptrTo tNew)) with hbrdef
        set top := mkExt (affix.take i) branchNode with htopdef
        set nodes := top :: branchNode :: oldFresh ++ singletonFresh newRest k v with hnodesdef
        have hself : ∀ nd ∈ nodes, (s.putAll nodes).find nd = some nd :=
          fun nd hnd => find_putAll_self s nodes nd hs hnd
        have hlift : ∀ d x, s.find d = some x → (s.putAll nodes).find d = some x :=
          fun d x hx => find_putAll_of_find s nodes d x hx
        -- old-side subtree
        have hOld : ∃ tOld, oldPtr = ptrTo tOld ∧
            Canon (s.putAll nodes) ((p ++ affix.take i) ++ [ba]) tOld m ∧
            (s.putAll nodes).find tOld = some tOld := by
          by_cases htl : tailAffix = []
          · refine ⟨child, ?_, ?_, hlift _ _ hfind⟩
            · rw [holdptrdef, if_pos htl, htag]
              rfl
            · have : p ++ affix = (p ++ affix.take i) ++ [ba] := by
                rw [hqeq, htl]
              rw [← this]
              exact hchild.mono hlift
          · refine ⟨Trie.ext tailAffix tag child, ?_, ?_, ?_⟩
            · rw [holdptrdef, if_neg htl]
              rfl
            · apply Canon.ext _ _ _ _ _ htl (hlift _ _ hfind) htag hshape
              have : ((p ++ affix.take i) ++ [ba]) ++ tailAffix = p ++ affix := by
                rw [hqeq]
                simp
              rw [this]
              exact hchild.mono hlift
            · apply hself
              rw [hnodesdef, holdfreshdef, if_neg htl]
              simp
        obtain ⟨tOld, hOldPtr, hOldC, hOldF⟩ := hOld
        -- new-side singleton
        have hNewC : Canon (s.putAll nodes) ((p ++ affix.take i) ++ [br]) tNew
            (singleMap k v) := by
          apply canon_singleton hqbr_full
          apply hself
          rw [hnodesdef]
          exact List.mem_cons_of_mem _ (List.mem_cons_of_mem _
            (List.mem_append_right _ (mem_singletonFresh_leaf newRest k v)))
        have hNewF : (s.putAll nodes).find tNew = some tNew := by
          apply hself
          rw [hnodesdef]
          exact List.mem_cons_of_mem _ (List.mem_cons_of_mem _
            (List.mem_append_right _ (mem_singletonFresh_self newRest k v)))
        -- the split branch
        have hsubOld : subAt (updMap m k v) ((p ++ affix.take i) ++ [ba]) = m := by
          rw [subAt_updMap_other hnotk_ba, subAt_full hsupp]
        have hsubNew : subAt (updMap m k v) ((p ++ affix.take i) ++ [br]) = singleMap k v :=
          subAt_upd_single hqk hnot_m_br
        have hcov : ∀ k1, updMap m k v k1 ≠ none →
            ((p ++ affix.take i) ++ [ba]) <+: keyPath k1 ∨
            ((p ++ affix.take i) ++ [br]) <+: keyPath k1 := by
          intro k1 h1
          by_cases he : k1 = k
          · subst he
            exact Or.inr hqk
          · left
            apply hsupp
            simpa [updMap, he] using h1
        have hbrC : Canon (s.putAll nodes) (p ++ affix.take i) branchNode (updMap m k v) := by
          rw [hbrdef, hOldPtr]
          exact canon_branch2 hbane hqlen hOldC hOldF hNewC hNewF hsubOld hsubNew hcov
        have hbrF : (s.putAll nodes).find branchNode = some branchNode := by
          apply hself
          rw [hnodesdef]
          simp
        have htopC : Canon (s.putAll nodes) p top (updMap m k v) := by
          rw [htopdef]
          apply canon_mkExt _ hbrF hbrC
          rw [hbrdef]
          rfl
        refine ⟨top, nodes, ?_, by rw [hnodesdef]; simp, ?_, htopC⟩
        · rw [hdropr, writeAt,
            dif_neg (fun hcc => hx (List.isPrefixOf_iff_prefix.mp hcc.2)), hfd]
          dsimp only
          rw [hba, hbr]
        · intro hfalse
          simp [Trie.isExtNode] at hfalse
  | branch p pb m hlen hdepth htwo hcover hne hfind htag hchild ih =>
    intro hpre
    obtain ⟨b0, r', hsplit, hsnoc, hr'⟩ := drop_cons_split hdepth hpre
    have hq_r' : (p ++ [b0]) ++ r' = keyPath k := by
      obtain ⟨r2, hr2⟩ := hsnoc
      have : r' = r2 := by
        rw [hr', ← hr2, List.drop_left]
      rw [this, hr2]
    cases hslot : getSlot pb b0 with
    | none =>
      have hmnone : m k = none := by
        by_contra hc
        obtain ⟨b, hb, hbne⟩ := hcover k hc
        have : b = b0 := prefix_snoc_same hb hsnoc
        rw [this, hslot] at hbne
        exact hbne rfl
      have hnokey : ∀ k1, m k1 ≠ none → ¬ (p ++ [b0]) <+: keyPath k1 := by
        intro k1 h1 hc
        obtain ⟨b, hb, hbne⟩ := hcover k1 h1
        have : b = b0 := prefix_snoc_same hb hc
        rw [this, hslot] at hbne
        exact hbne rfl
      constructor
      · intro hmk
        rw [hmnone] at hmk
        cases hmk
      · intro _
        set tNew := singletonTrie r' k v with htnewdef
        set pb' := setSlot pb b0 (ptrTo tNew) with hpbdef
        set nodes := Trie.node pb' :: singletonFresh r' k v with hnodesdef
        have hself : ∀ nd ∈ nodes, (s.putAll nodes).find nd = some nd :=
          fun nd hnd => find_putAll_self s nodes nd hs hnd
        have hlift : ∀ d x, s.find d = some x → (s.putAll nodes).find d = some x :=
          fun d x hx => find_putAll_of_find s nodes d x hx
        refine ⟨Trie.node pb', nodes, ?_, by rw [hnodesdef]; simp, ?_, ?_⟩
        · rw [hsplit, writeAt, hslot]
        · intro _
          rfl
        · apply Canon.branch p pb' (updMap m k v) (by rw [hpbdef, setSlot_length, hlen]) hdepth
          · obtain ⟨b1, b2, hb12, h1, h2⟩ := htwo
            exact ⟨b1, b2, hb12, getSlot_setSlot_preserve hlen h1,
              getSlot_setSlot_preserve hlen h2⟩
          · intro k1 h1
            by_cases he : k1 = k
            · subst he
              refine ⟨b0, hsnoc, ?_⟩
              rw [hpbdef, getSlot_setSlot hlen, if_pos rfl]
              simp
            · obtain ⟨b, hb, hbne⟩ := hcover k1 (by simpa [updMap, he] using h1)
              refine ⟨b, hb, getSlot_setSlot_preserve hlen hbne⟩
          · intro b pr hpr
            rw [hpbdef, getSlot_setSlot hlen] at hpr
            by_cases hb : b = b0
            · subst hb
              refine ⟨k, ?_⟩
              rw [subAt_ne_none_iff]
              exact ⟨hsnoc, by simp [updMap]⟩
            · rw [if_neg hb] at hpr
              obtain ⟨k1, hk1⟩ := hne b pr hpr
              refine ⟨k1, ?_⟩
              rw [subAt_ne_none_iff] at hk1 ⊢
              refine ⟨hk1.1, ?_⟩
              have hk1k : k1 ≠ k := by
                intro hc
                subst hc
                exact hb (prefix_snoc_same hk1.1 hsnoc)
              simpa [updMap, hk1k] using hk1.2
          · intro b pr hpr
            rw [hpbdef, getSlot_setSlot hlen] at hpr
            by_cases hb : b = b0
            · rw [if_pos hb] at hpr
              cases hpr
              apply hself
              rw [hnodesdef]
              exact List.mem_cons_of_mem _ (mem_singletonFresh_self r' k v)
            · rw [if_neg hb] at hpr
              exact hlift _ _ (hfind b pr hpr)
          · intro b pr hpr
            rw [hpbdef, getSlot_setSlot hlen] at hpr
            by_cases hb : b = b0
            · rw [if_pos hb] at hpr
              cases hpr
              rfl
            · rw [if_neg hb] at hpr
              exact htag b pr hpr
          · intro b pr hpr
            rw [hpbdef, getSlot_setSlot hlen] at hpr
            by_cases hb : b = b0
            · subst hb
              rw [if_pos rfl] at hpr
              cases hpr
              rw [subAt_upd_single hsnoc hnokey]
              exact canon_singleton hq_r' (hself _ (by
                rw [hnodesdef]
                exact List.mem_cons_of_mem _ (mem_singletonFresh_leaf r' k v)))
            · rw [if_neg hb] at hpr
              have hnp : ¬ (p ++ [b]) <+: keyPath k := by
                intro hc
                exact hb (prefix_snoc_same hc hsnoc)
              rw [subAt_updMap_other hnp]
              exact (hchild b pr hpr).mono hlift
    | some pr0 =>
      obtain ⟨tg, cd⟩ := pr0
      have hcfind : s.find cd = some cd := hfind b0 (tg, cd) hslot
      have ihh := ih b0 (tg, cd) hslot hsnoc
      have hmc : subAt m (p ++ [b0]) k = m k := subAt_eq_of_prefix hsnoc
      have hdropc : r' = (keyPath k).drop (p ++ [b0]).length := hr'
      constructor
      · intro hmk
        have hrec : writeAt s cd ((keyPath k).drop (p ++ [b0]).length) k v =
            WriteRes.already := ihh.1 (by rw [hmc]; exact hmk)
        rw [hsplit, writeAt, hslot]
        dsimp only
        rw [hcfind]
        dsimp only
        rw [hdropc, hrec]
      · intro hmk
        obtain ⟨c', fresh, heq0, hmem, hshape', hC⟩ := ihh.2 (by rw [hmc]; exact hmk)
        have heq : writeAt s cd ((keyPath k).drop (p ++ [b0]).length) k v =
            WriteRes.upd c' fresh := heq0
        set pb' := setSlot pb b0 (ptrTo c') with hpbdef
        set nodes := Trie.node pb' :: fresh with hnodesdef
        have hself : ∀ nd ∈ nodes, (s.putAll nodes).find nd = some nd :=
          fun nd hnd => find_putAll_self s nodes nd hs hnd
        have hlift : ∀ d x, s.find d = some x → (s.putAll nodes).find d = some x :=
          fun d x hx => find_putAll_of_find s nodes d x hx
        have hCl : Canon (s.putAll nodes) (p ++ [b0]) c'
            (updMap (subAt m (p ++ [b0])) k v) := by
          rw [hnodesdef]
          exact hC.mono (lift_putNode_putAll hs _ fresh)
        refine ⟨Trie.node pb', nodes, ?_, by rw [hnodesdef]; simp, ?_, ?_⟩
        · rw [hsplit, writeAt, hslot]
          dsimp only
          rw [hcfind]
          dsimp only
          rw [hdropc, heq]
        · intro _
          rfl
        · apply Canon.branch p pb' (updMap m k v) (by rw [hpbdef, setSlot_length, hlen]) hdepth
          · obtain ⟨b1, b2, hb12, h1, h2⟩ := htwo
            exact ⟨b1, b2, hb12, getSlot_setSlot_preserve hlen h1,
              getSlot_setSlot_preserve hlen h2⟩
          · intro k1 h1
            by_cases he : k1 = k
            · subst he
              refine ⟨b0, hsnoc, ?_⟩
              rw [hpbdef, getSlot_setSlot hlen, if_pos rfl]
              simp
            · obtain ⟨b, hb, hbne⟩ := hcover k1 (by simpa [updMap, he] using h1)
              refine ⟨b, hb, getSlot_setSlot_preserve hlen hbne⟩
          · intro b pr hpr
            rw [hpbdef, getSlot_setSlot hlen] at hpr
            by_cases hb : b = b0
            · subst hb
              refine ⟨k, ?_⟩
              rw [subAt_ne_none_iff]
              exact ⟨hsnoc, by simp [updMap]⟩
            · rw [if_neg hb] at hpr
              obtain ⟨k1, hk1⟩ := hne b pr hpr
              refine ⟨k1, ?_⟩
              rw [subAt_ne_none_iff] at hk1 ⊢
              refine ⟨hk1.1, ?_⟩
              have hk1k : k1 ≠ k := by
                intro hc
                subst hc
                exact hb (prefix_snoc_same hk1.1 hsnoc)
              simpa [updMap, hk1k] using hk1.2
          · intro b pr hpr
            rw [hpbdef, getSlot_setSlot hlen] at hpr
            by_cases hb : b = b0
            · rw [if_pos hb] at hpr
              cases hpr
              apply hself
              rw [hnodesdef]
              exact List.mem_cons_of_mem _ hmem
            · rw [if_neg hb] at hpr
              exact hlift _ _ (hfind b pr hpr)
          · intro b pr hpr
            rw [hpbdef, getSlot_setSlot hlen] at hpr
            by_cases hb : b = b0
            · rw [if_pos hb] at hpr
              cases hpr
              rfl
            · rw [if_neg hb] at hpr
              exact htag b pr hpr
          · intro b pr hpr
            rw [hpbdef, getSlot_setSlot hlen] at hpr
            by_cases hb : b = b0
            · subst hb
              rw [if_pos rfl] at hpr
              cases hpr
              rw [subAt_upd_same hsnoc]
              exact hCl
            · rw [if_neg hb] at hpr
              have hnp : ¬ (p ++ [b]) <+: keyPath k := by
                intro hc
                exact hb (prefix_snoc_same hc hsnoc)
              rw [subAt_updMap_other hnp]
              exact (hchild b pr hpr).mono hlift

theorem updMap_emptyMap {k : Key} {v : Value} :
    updMap emptyMap k v = singleMap k v := by
  funext k1
  unfold updMap emptyMap singleMap
  by_cases he : k1 = k <;> simp [he]

/-- Correctness of top-level `write` on a canonically represented root:
an existing identical pair returns `AlreadyExists` with the store
byte-identical; otherwise a new canonical root for the updated map is
produced and the store only grows. -/
theorem write_correct {s : Store} {root : Digest} {m : Key → Option Value}
    (hs : WfStore s) (h : RootCanon s root m) (k : Key) (v : Value) :
    (m k = some v → write s root k v = (.alreadyExists, s)) ∧
    (m k ≠ some v → ∃ root' s', write s root k v = (.written root', s') ∧
      WfStore s' ∧ RootCanon s' root' (updMap m k v) ∧
      (∀ d x, s.find d = some x → s'.find d = some x)) := by
  rcases h with ⟨hroot, hfind, hm⟩ | ⟨hfind, hc⟩
  · subst hroot
    constructor
    · intro hmk
      rw [hm] at hmk
      cases hmk
    · intro _
      refine ⟨singletonTrie (keyPath k) k v, s.putAll (singletonFresh (keyPath k) k v),
        ?_, wfStore_putAll _ _ hs, ?_, fun d x hx => find_putAll_of_find _ _ _ _ hx⟩
      · unfold write
        rw [hfind]
        dsimp only
        rw [if_pos rfl]
        rfl
      · right
        refine ⟨?_, ?_⟩
        · exact find_putAll_self s _ _ hs (mem_singletonFresh_self (keyPath k) k v)
        · rw [hm, updMap_emptyMap]
          exact canon_singleton (by simp)
            (find_putAll_self s _ _ hs (mem_singletonFresh_leaf (keyPath k) k v))
  · have hnotempty : root ≠ emptyTrie := fun hcc => canon_emptyTrie_false (hcc ▸ hc)
    have hw := writeAt_correct hs hc k v List.nil_prefix
    constructor
    · intro hmk
      have halready : writeAt s root (keyPath k) k v = .already := by
        have := hw.1 hmk
        simpa using this
      unfold write
      rw [hfind]
      dsimp only
      rw [if_neg hnotempty, halready]
    · intro hmk
      obtain ⟨t', fresh, heq0, hmem, _, hC⟩ := hw.2 hmk
      have heq : writeAt s root (keyPath k) k v = .upd t' fresh := by
        simpa using heq0
      refine ⟨t', s.putAll fresh, ?_, wfStore_putAll _ _ hs, ?_,
        fun d x hx => find_putAll_of_find _ _ _ _ hx⟩
      · unfold write
        rw [hfind]
        dsimp only
        rw [if_neg hnotempty, heq]
        rfl
      · right
        exact ⟨find_putAll_self s fresh t' hs hmem, hC⟩

/-- Invariant of the commit fold: a successful fold over a canonically
represented prestate yields a canonically represented poststate whose map
applies each effect exactly once to the prestate's value at its key. -/
theorem commitGo_correct :
    ∀ (l : List (Key × Transform)) (s : Store) (root : Digest) (m : Key → Option Value),
    WfStore s → RootCanon s root m → (l.map Prod.fst).Nodup →
    ∀ s' r', commitGo s root l = .ok (s', r') →
      WfStore s' ∧
      (∀ d x, s.find d = some x → s'.find d = some x) ∧
      ∃ m', RootCanon s' r' m' ∧
        (∀ k tf, (k, tf) ∈ l → ∃ cv, applyTransform tf (m k) = .ok cv ∧ m' k = some cv) ∧
        (∀ k, (∀ tf, (k, tf) ∉ l) → m' k = m k) := by
  intro l
  induction l with
  | nil =>
    intro s root m hs h _ s' r' hok
    rw [commitGo] at hok
    cases hok
    refine ⟨hs, fun d x hx => hx, m, h, ?_, fun k _ => rfl⟩
    intro k tf hk
    cases hk
  | cons e rest ih =>
    obtain ⟨k0, tf0⟩ := e
    intro s root m hs h hnodup s' r' hok
    rw [List.map_cons] at hnodup
    have hk0notin : k0 ∉ rest.map Prod.fst := (List.nodup_cons.mp hnodup).1
    have hnd : (rest.map Prod.fst).Nodup := (List.nodup_cons.mp hnodup).2
    rw [commitGo] at hok
    have hread := read_correct h k0
    have hcur : (match readOp s root k0 with
        | ReadResult.found v => some v
        | _ => none) = m k0 := by
      rw [hread]
      cases m k0 <;> rfl
    rw [hcur] at hok
    cases happ : applyTransform tf0 (m k0) with
    | error e0 =>
      rw [happ] at hok
      cases hok
    | ok v0 =>
      rw [happ] at hok
      dsimp only at hok
      have hwc := write_correct hs h k0 v0
      by_cases hsame : m k0 = some v0
      · rw [hwc.1 hsame] at hok
        dsimp only at hok
        obtain ⟨hwf, hgrow, m', hrc, hin, hout⟩ := ih s root m hs h hnd s' r' hok
        refine ⟨hwf, hgrow, m', hrc, ?_, ?_⟩
        · intro k tf hk
          rcases List.mem_cons.mp hk with heq | hmem
          · obtain ⟨rfl, rfl⟩ := Prod.mk.inj heq
            refine ⟨v0, happ, ?_⟩
            have hknot : ∀ tf1, (k, tf1) ∉ rest := by
              intro tf1 h1
              exact hk0notin (List.mem_map_of_mem Prod.fst h1)
            rw [hout k hknot, hsame]
          · exact hin k tf hmem
        · intro k hk
          exact hout k (fun tf1 h1 => hk tf1 (List.mem_cons_of_mem _ h1))
      · obtain ⟨root1, s1, hweq, hwf1, hrc1, hgrow1⟩ := hwc.2 hsame
        rw [hweq] at hok
        dsimp only at hok
        obtain ⟨hwf, hgrow, m', hrc, hin, hout⟩ :=
          ih s1 root1 (updMap m k0 v0) hwf1 hrc1 hnd s' r' hok
        refine ⟨hwf, fun d x hx => hgrow d x (hgrow1 d x hx), m', hrc, ?_, ?_⟩
        · intro k tf hk
          rcases List.mem_cons.mp hk with heq | hmem
          · obtain ⟨rfl, rfl⟩ := Prod.mk.inj heq
            refine ⟨v0, happ, ?_⟩
            have hknot : ∀ tf1, (k, tf1) ∉ rest := by
              intro tf1 h1
              exact hk0notin (List.mem_map_of_mem Prod.fst h1)
            rw [hout k hknot]
            simp [updMap]
          · have hkne : k ≠ k0 := by
              intro hc
              subst hc
              exact hk0notin (List.mem_map_of_mem Prod.fst hmem)
            obtain ⟨cv, hap, hm'⟩ := hin k tf hmem
            refine ⟨cv, ?_, hm'⟩
            rw [show updMap m k0 v0 k = m k from by simp [updMap, hkne]] at hap
            exact hap
        · intro k hk
          have hkne : k ≠ k0 := by
            intro hc
            subst hc
            exact hk tf0 (List.mem_cons_self _ _)
          rw [hout k (fun tf1 h1 => hk tf1 (List.mem_cons_of_mem _ h1))]
          simp [updMap, hkne]

/-! ### Characterisation of `missing_descendant_trie_keys` -/

/-- A digest is missing-or-corrupt: no stored node hashes back to it. -/
def badAt (s : Store) (d : Digest) : Prop :=
  ∀ t, s.find d = some t → trieHash t ≠ d

theorem badAt_of_none {s : Store} {d : Digest} (h : s.find d = none) : badAt s d := by
  intro t ht
  rw [h] at ht
  cases ht

theorem mdtkLoop_spec (s : Store) (root : Digest) :
    ∀ visited missing queue,
    (∀ d ∈ missing, d ∈ visited ∧ badAt s d) →
    (∀ d ∈ visited, badAt s d → d ∈ missing) →
    missing.Nodup →
    (∀ d ∈ visited, ∀ t, s.find d = some t → ∀ c ∈ childDigests t, c ∈ visited ∨ c ∈ queue) →
    (∀ d ∈ queue, Reaches s root d) →
    (∀ d ∈ visited, Reaches s root d) →
    (root ∈ visited ∨ root ∈ queue) →
    (mdtkLoop s visited missing queue).Nodup ∧
    (∀ d, d ∈ mdtkLoop s visited missing queue ↔ Reaches s root d ∧ badAt s d) := by
  intro visited missing queue
  induction visited, missing, queue using mdtkLoop.induct s with
  | case1 visited missing =>
    intro i1 i2 i3 i4 i5 i6 i7
    rw [mdtkLoop]
    have hvis : ∀ d, Reaches s root d → d ∈ visited := by
      intro d hr
      induction hr with
      | refl =>
        rcases i7 with h | h
        · exact h
        · cases h
      | step hr hfind hc ihr =>
        rcases i4 _ ihr _ hfind _ hc with h | h
        · exact h
        · cases h
    constructor
    · exact List.nodup_reverse.mpr i3
    · intro d
      rw [List.mem_reverse]
      constructor
      · intro hm
        obtain ⟨hv, hb⟩ := i1 d hm
        exact ⟨i6 d hv, hb⟩
      · rintro ⟨hr, hb⟩
        exact i2 d (hvis d hr) hb
  | case2 visited missing d rest hin ih =>
    intro i1 i2 i3 i4 i5 i6 i7
    rw [mdtkLoop, if_pos hin]
    apply ih
    · exact i1
    · exact i2
    · exact i3
    · intro d1 h1 t ht c hc
      rcases i4 d1 h1 t ht c hc with h | h
      · exact Or.inl h
      · rcases List.mem_cons.mp h with rfl | h
        · exact Or.inl hin
        · exact Or.inr h
    · exact fun d1 h1 => i5 d1 (List.mem_cons_of_mem _ h1)
    · exact i6
    · rcases i7 with h | h
      · exact Or.inl h
      · rcases List.mem_cons.mp h with rfl | h
        · exact Or.inl hin
        · exact Or.inr h
  | case3 visited missing d rest hnin hfind ih =>
    intro i1 i2 i3 i4 i5 i6 i7
    rw [mdtkLoop, if_neg hnin, hfind]
    apply ih
    · intro d1 h1
      rcases List.mem_cons.mp h1 with rfl | h1
      · exact ⟨List.mem_cons_self _ _, badAt_of_none hfind⟩
      · obtain ⟨hv, hb⟩ := i1 d1 h1
        exact ⟨List.mem_cons_of_mem _ hv, hb⟩
    · intro d1 h1 hb
      rcases List.mem_cons.mp h1 with rfl | h1
      · exact List.mem_cons_self _ _
      · exact List.mem_cons_of_mem _ (i2 d1 h1 hb)
    · refine List.nodup_cons.mpr ⟨?_, i3⟩
      intro hc
      exact hnin (i1 d hc).1
    · intro d1 h1 t ht c hc
      rcases List.mem_cons.mp h1 with rfl | h1
      · rw [hfind] at ht
        cases ht
      · rcases i4 d1 h1 t ht c hc with h | h
        · exact Or.inl (List.mem_cons_of_mem _ h)
        · rcases List.mem_cons.mp h with rfl | h
          · exact Or.inl (List.mem_cons_self _ _)
          · exact Or.inr h
    · exact fun d1 h1 => i5 d1 (List.mem_cons_of_mem _ h1)
    · intro d1 h1
      rcases List.mem_cons.mp h1 with rfl | h1
      · exact i5 d1 (List.mem_cons_self _ _)
      · exact i6 d1 h1
    · rcases i7 with h | h
      · exact Or.inl (List.mem_cons_of_mem _ h)
      · rcases List.mem_cons.mp h with rfl | h
        · exact Or.inl (List.mem_cons_self _ _)
        · exact Or.inr h
  | case4 visited missing d rest hnin t hfind ih =>
    intro i1 i2 i3 i4 i5 i6 i7
    rw [mdtkLoop, if_neg hnin, hfind]
    have hreach_d : Reaches s root d := i5 d (List.mem_cons_self _ _)
    apply ih
    · intro d1 h1
      by_cases hh : trieHash t = d
      · rw [dif_pos hh] at h1
        obtain ⟨hv, hb⟩ := i1 d1 h1
        exact ⟨List.mem_cons_of_mem _ hv, hb⟩
      · rw [dif_neg hh] at h1
        rcases List.mem_cons.mp h1 with rfl | h1
        · refine ⟨List.mem_cons_self _ _, ?_⟩
          intro t' ht'
          rw [hfind] at ht'
          cases ht'
          exact hh
        · obtain ⟨hv, hb⟩ := i1 d1 h1
          exact ⟨List.mem_cons_of_mem _ hv, hb⟩
    · intro d1 h1 hb
      rcases List.mem_cons.mp h1 with rfl | h1
      · have hne := hb t hfind
        rw [dif_neg hne]
        exact List.mem_cons_self _ _
      · have := i2 d1 h1 hb
        by_cases hh : trieHash t = d
        · rw [dif_pos hh]
          exact this
        · rw [dif_neg hh]
          exact List.mem_cons_of_mem _ this
    · by_cases hh : trieHash t = d
      · rw [dif_pos hh]
        exact i3
      · rw [dif_neg hh]
        refine List.nodup_cons.mpr ⟨?_, i3⟩
        intro hc
        exact hnin (i1 d hc).1
    · intro d1 h1 t1 ht1 c hc
      rcases List.mem_cons.mp h1 with rfl | h1
      · rw [hfind] at ht1
        cases ht1
        exact Or.inr (List.mem_append_right _ hc)
      · rcases i4 d1 h1 t1 ht1 c hc with h | h
        · exact Or.inl (List.mem_cons_of_mem _ h)
        · rcases List.mem_cons.mp h with rfl | h
          · exact Or.inl (List.mem_cons_self _ _)
          · exact Or.inr (List.mem_append_left _ h)
    · intro d1 h1
      rcases List.mem_append.mp h1 with h | h
      · exact i5 d1 (List.mem_cons_of_mem _ h)
      · exact Reaches.step hreach_d hfind h
    · intro d1 h1
      rcases List.mem_cons.mp h1 with rfl | h1
      · exact hreach_d
      · exact i6 d1 h1
    · rcases i7 with h | h
      · exact Or.inl (List.mem_cons_of_mem _ h)
      · rcases List.mem_cons.mp h with rfl | h
        · exact Or.inl (List.mem_cons_self _ _)
        · exact Or.inr (List.mem_append_left _ h)

/-- The output of `missing_descendant_trie_keys` has no duplicates and
contains exactly the reachable digests with no correctly hashed entry. -/
theorem mdtk_spec (s : Store) (root : Digest) :
    (missingDescendantTrieKeys s root).Nodup ∧
    (∀ d, d ∈ missingDescendantTrieKeys s root ↔ Reaches s root d ∧ badAt s d) := by
  unfold missingDescendantTrieKeys
  apply mdtkLoop_spec s root [] [] [root]
  · intro d hd
    cases hd
  · intro d hd
    cases hd
  · exact List.nodup_nil
  · intro d hd
    cases hd
  · intro d hd
    rcases List.mem_cons.mp hd with rfl | h
    · exact Reaches.refl
    · cases h
  · intro d hd
    cases hd
  · exact Or.inr (List.mem_cons_self _ _)

/-! ### Keys agreement and reachability transfer -/

theorem mem_childDigests_node {pb : List (Option Ptr)} {pr : Ptr}
    (h : pr ∈ pb.filterMap id) : pr.2 ∈ childDigests (.node pb) := by
  unfold childDigests
  rw [List.mem_filterMap] at h ⊢
  obtain ⟨a, ha, hid⟩ := h
  have ha2 : a = some pr := hid
  exact ⟨a, ha, by rw [ha2]; rfl⟩

/-- The keys enumeration only consults bindings at digests reachable from
the enumerated node. -/
theorem keysAt_agree {s s' : Store} {root : Digest}
    (hagree : ∀ d1, Reaches s root d1 → s'.find d1 = s.find d1) :
    ∀ (fuel : ℕ) (t : Trie) (d : Digest),
    Reaches s root d → s.find d = some t →
    keysAt s' fuel t = keysAt s fuel t := by
  intro fuel
  induction fuel with
  | zero =>
    intro t d _ _
    cases t <;> rfl
  | succ fuel ih =>
    intro t d hr hf
    cases t with
    | leaf k v => rfl
    | ext affix tag tgt =>
      rw [keysAt, keysAt]
      have hrt : Reaches s root tgt := Reaches.step hr hf (by simp [childDigests])
      rw [hagree tgt hrt]
      cases hft : s.find tgt with
      | none => rfl
      | some c => exact ih c tgt hrt hft
    | node pb =>
      rw [keysAt, keysAt]
      congr 1
      apply List.map_congr_left
      intro pr hpr
      have hrc : Reaches s root pr.2 := Reaches.step hr hf (mem_childDigests_node hpr)
      rw [hagree pr.2 hrc]
      cases hfc : s.find pr.2 with
      | none => rfl
      | some c => exact ih c pr.2 hrc hfc

theorem keysOp_agree {s s' : Store} {root : Digest}
    (hagree : ∀ d1, Reaches s root d1 → s'.find d1 = s.find d1) :
    keysOp s' root = keysOp s root := by
  unfold keysOp
  rw [hagree root Reaches.refl]
  cases hf : s.find root with
  | none => rfl
  | some t => exact keysAt_agree hagree 65 t root Reaches.refl hf

theorem Reaches_of_agree {src dest : Store} {root : Digest}
    (hagree : ∀ d, Reaches src root d → dest.find d = src.find d) :
    ∀ d, Reaches dest root d → Reaches src root d := by
  intro d h
  induction h with
  | refl => exact Reaches.refl
  | step hr hfind hc ihr =>
    rw [hagree _ ihr] at hfind
    exact Reaches.step ihr hfind hc

theorem eq_singleton_of_nodup {l : List Digest} {a : Digest} (hnd : l.Nodup)
    (hmem : ∀ x, x ∈ l ↔ x = a) : l = [a] := by
  cases l with
  | nil =>
    have := (hmem a).mpr rfl
    cases this
  | cons x xs =>
    have hx : x = a := (hmem x).mp (List.mem_cons_self _ _)
    subst hx
    cases xs with
    | nil => rfl
    | cons y ys =>
      have hy : y = x := (hmem y).mp (List.mem_cons_of_mem _ (List.mem_cons_self _ _))
      subst hy
      exact absurd (List.mem_cons_self _ _) (List.nodup_cons.mp hnd).1

theorem rootCanon_mono {s s' : Store} {root : Digest} {m : Key → Option Value}
    (hsub : ∀ d x, s.find d = some x → s'.find d = some x)
    (h : RootCanon s root m) : RootCanon s' root m := by
  rcases h with ⟨h1, h2, h3⟩ | ⟨h1, h2⟩
  · exact Or.inl ⟨h1, hsub _ _ h2, h3⟩
  · exact Or.inr ⟨hsub _ _ h1, h2.mono hsub⟩

theorem rootCanon_unique {sa sb : Store} {ra rb : Digest} {mm : Key → Option Value}
    (ha : RootCanon sa ra mm) (hb : RootCanon sb rb mm) : ra = rb := by
  rcases ha with ⟨ha1, _, ha3⟩ | ⟨_, ha2⟩
  · rcases hb with ⟨hb1, _, _⟩ | ⟨_, hb2⟩
    · rw [ha1, hb1]
    · obtain ⟨k, hk⟩ := hb2.nonempty
      rw [ha3] at hk
      exact absurd rfl hk
  · rcases hb with ⟨_, _, hb3⟩ | ⟨_, hb2⟩
    · obtain ⟨k, hk⟩ := ha2.nonempty
      rw [hb3] at hk
      exact absurd rfl hk
    · exact canon_unique ha2 hb2

theorem commitOp_success_inv {cid : CorrelationId} {s : Store} {prestate : Digest}
    {effects : List (Key × Transform)} {r' : Digest} {s' : Store}
    (h : commitOp cid s prestate effects = (.success r', s')) :
    commitGo s prestate effects = .ok (s', r') := by
  unfold commitOp at h
  cases hf : s.find prestate with
  | none =>
    rw [hf] at h
    cases h
  | some t =>
    rw [hf] at h
    cases hg : commitGo s prestate effects with
    | ok res =>
      obtain ⟨s1, r1⟩ := res
      rw [hg] at h
      dsimp only at h
      obtain ⟨h1, h2⟩ := Prod.mk.inj h
      cases h1
      cases h2
      rfl
    | error e =>
      obtain ⟨k0, e0⟩ := e
      rw [hg] at h
      cases h

theorem wfStore_of_forall {s : Store} (h : ∀ e ∈ s, e.2 = e.1) : WfStore s := by
  intro d t hf
  induction s with
  | nil => cases hf
  | cons e rest ih =>
    obtain ⟨d', t'⟩ := e
    simp only [Store.find_cons] at hf
    by_cases hd : d = d'
    · rw [if_pos hd] at hf
      have ht : t = t' := by
        cases hf
        rfl
      have := h (d', t') (List.mem_cons_self _ _)
      simp only at this
      rw [trieHash_eq, ht, this, hd]
    · rw [if_neg hd] at hf
      exact ih (fun e he => h e (List.mem_cons_of_mem _ he)) hf

/-! ### Copy-with-one-corrupt-entry reachability transfer (for the
`missing_descendant_trie_keys` corruption-detection property) -/

theorem reaches_dest_or_bad {src dest : Store} {root bad : Digest}
    (hsrc : ∀ d, Reaches src root d → src.find d = some d)
    (hdest : ∀ d, Reaches src root d → d ≠ bad → dest.find d = some d) :
    ∀ d, Reaches src root d → Reaches dest root d ∨ Reaches dest root bad := by
  intro d h
  induction h with
  | refl => exact Or.inl Reaches.refl
  | step hr hfind hc ihr =>
    rename_i d0 t c
    rcases ihr with hok | hbad
    · by_cases hb : d0 = bad
      · exact Or.inr (hb ▸ hok)
      · have hfd := hdest _ hr hb
        have hfs := hsrc _ hr
        rw [hfind] at hfs
        cases hfs
        exact Or.inl (Reaches.step hok hfd hc)
    · exact Or.inr hbad

theorem dest_reach_inv {src dest : Store} {root bad : Digest} {tbad : Trie}
    (hsrc : ∀ d, Reaches src root d → src.find d = some d)
    (hdest : ∀ d, Reaches src root d → d ≠ bad → dest.find d = some d)
    (honly : ∀ d, dest.find d ≠ none → Reaches src root d)
    (hbadentry : dest.find bad = some tbad)
    (hchild : ∀ c, c ∈ childDigests tbad → dest.find c ≠ none) :
    ∀ d, Reaches dest root d → d = bad ∨ dest.find d = some d := by
  intro d h
  induction h with
  | refl =>
    by_cases hb : root = bad
    · exact Or.inl hb
    · exact Or.inr (hdest root Reaches.refl hb)
  | step hr hfind hc ihr =>
    rename_i d0 t c
    rcases ihr with hb | hok
    · rw [hb, hbadentry] at hfind
      cases hfind
      have hcs : Reaches src root c := honly c (hchild c hc)
      by_cases hcb : c = bad
      · exact Or.inl hcb
      · exact Or.inr (hdest c hcs hcb)
    · rw [hok] at hfind
      cases hfind
      have hds : Reaches src root d0 := honly d0 (by rw [hok]; intro hno; cases hno)
      have hcs : Reaches src root c := Reaches.step hds (hsrc d0 hds) hc
      by_cases hcb : c = bad
      · exact Or.inl hcb
      · exact Or.inr (hdest c hcs hcb)

/-! ### The descent never reports a missing root -/

theorem readAt_ne_rootNotFound (s : Store) (t : Trie) (r : List Byte) (k : Key) :
    readAt s t r k ≠ ReadResult.rootNotFound := by
  induction t, r, k using readAt.induct s with
  | case1 r k v =>
    rw [readAt, if_pos rfl]
    simp
  | case2 r k1 k2 v h =>
    rw [readAt, if_neg h]
    simp
  | case3 r k affix tag tgt h hx =>
    rw [readAt, dif_pos h, hx]
    simp
  | case4 r k affix tag tgt h child hx ih =>
    rw [readAt, dif_pos h, hx]
    exact ih
  | case5 r k affix tag tgt h =>
    rw [readAt, dif_neg h]
    simp
  | case6 k pb =>
    rw [readAt]
    simp
  | case7 k pb b r' hx =>
    rw [readAt]
    rw [hx]
    simp
  | case8 k pb b r' tg cd hx1 hx2 =>
    rw [readAt]
    rw [hx1]
    dsimp only
    rw [hx2]
    simp
  | case9 k pb b r' tg cd hx1 child hx2 ih =>
    rw [readAt]
    rw [hx1]
    dsimp only
    rw [hx2]
    exact ih

/-! ## Claim theorems -/

/-- C4: a digest with no entry in the trie store checks out to `None`
rather than an error, and a digest whose node is present checks out to
`Some` reader bound to that root. -/
theorem c4_checkout_absent_none_present_reader (g : LmdbGlobalState) (d : Digest) :
    (g.trieStore.find d = none → (checkout g d).1 = none) ∧
    (∀ t, g.trieStore.find d = some t →
      (checkout g d).1 = some ⟨d⟩) := by
  constructor
  · intro h
    simp only [checkout, h]
  · intro t h
    simp only [checkout, h]

/-- C5: for a reader obtained from a successful checkout, against any
store extending the one seen at checkout time, the underlying trie read
and read-with-proof never yield `RootNotFound`, so the panic branches of
`LmdbGlobalStateView::read` and `read_with_proof` are unreachable. -/
theorem c5_reader_panic_unreachable {g : LmdbGlobalState} {R : Digest}
    {view : LmdbGlobalStateView}
    (hck : (checkout g R).1 = some view) (g' : LmdbGlobalState)
    (hgrow : ∀ d x, g.trieStore.find d = some x → g'.trieStore.find d = some x)
    (cid : CorrelationId) (k : Key) :
    readOp g'.trieStore view.rootHash k ≠ ReadResult.rootNotFound ∧
    readWithProof g'.trieStore view.rootHash k ≠ ProofReadResult.rootNotFound ∧
    (stateRead g' view cid k).1 ≠ FacadeRead.panicked ∧
    (stateReadWithProof g' view cid k).1 ≠ FacadeProofRead.panicked := by
  have hx : ∃ t, g.trieStore.find R = some t ∧ view = ⟨R⟩ := by
    unfold checkout at hck
    cases hf : g.trieStore.find R with
    | none =>
      rw [hf] at hck
      cases hck
    | some t =>
      rw [hf] at hck
      have hv : view = ⟨R⟩ := by
        injection hck with h2
        exact h2.symm
      exact ⟨t, rfl, hv⟩
  obtain ⟨t, hf, hview⟩ := hx
  subst hview
  have hf' : g'.trieStore.find R = some t := hgrow R t hf
  have h1 : readOp g'.trieStore R k ≠ ReadResult.rootNotFound := by
    unfold readOp
    rw [hf']
    exact readAt_ne_rootNotFound g'.trieStore t (keyPath k) k
  have h2 : readWithProof g'.trieStore R k ≠ ProofReadResult.rootNotFound := by
    unfold readWithProof
    rw [hf']
    dsimp only
    cases hp : proofAt g'.trieStore t (keyPath k) k with
    | none => simp
    | some pr => simp
  refine ⟨h1, h2, ?_, ?_⟩
  · cases hr : readOp g'.trieStore R k with
    | found v => simp [stateRead, hr]
    | notFound => simp [stateRead, hr]
    | rootNotFound => exact absurd hr h1
  · cases hr : readWithProof g'.trieStore R k with
    | found pf => simp [stateReadWithProof, hr]
    | notFound => simp [stateReadWithProof, hr]
    | rootNotFound => exact absurd hr h2

/-- C8: writing a `(K, V)` pair whose leaf already exists under root `R`
returns `AlreadyExists` and returns the store unchanged — no node is
allocated. -/
theorem c8_write_existing_pair_allocates_nothing {s : Store} {R : Digest}
    {m : Key → Option Value} (hs : WfStore s) (h : RootCanon s R m)
    (K : Key) (V : Value) (hexists : m K = some V) :
    write s R K V = (WriteOutcome.alreadyExists, s) :=
  (write_correct hs h K V).1 hexists

/-- C9: when the storage layer answers a well-formed
`state_get_keys_with_prefix` request with `RootNotFound`, the handler hits
a `todo!()` and panics instead of returning a structured error response to
the client. -/
theorem c9_root_not_found_panics (px : List Byte) :
    handleGetKeysWithPrefix (some px) (Except.ok GetKeysWithPrefixResult.rootNotFound) =
      RpcResponse.panicked ∧
    ∀ code, handleGetKeysWithPrefix (some px)
      (Except.ok GetKeysWithPrefixResult.rootNotFound) ≠ RpcResponse.errorResponse code := by
  constructor
  · rfl
  · intro code h
    cases h

/-- C10: every read-path facade operation — `read`, `read_with_proof`,
`read_trie`, `checkout`, `get_protocol_data`,
`missing_descendant_trie_keys` — returns the state (both stores) it was
given, unchanged. -/
theorem c10_read_path_leaves_stores_unchanged (g : LmdbGlobalState)
    (view : LmdbGlobalStateView) (cid : CorrelationId) (k : Key)
    (d : Digest) (pv : ProtocolVersion) :
    (stateRead g view cid k).2 = g ∧
    (stateReadWithProof g view cid k).2 = g ∧
    (stateReadTrie g view cid d).2 = g ∧
    (checkout g d).2 = g ∧
    (getProtocolData g pv).2 = g ∧
    (stateMissingDescendantTrieKeys g cid d).2 = g :=
  ⟨rfl, rfl, rfl, rfl, rfl, rfl⟩

/-- C2: a successful commit of write effects against an existing,
canonically stored prestate root checks out at the returned state root,
and reading each written key through that reader yields exactly the
effect's post-value. -/
theorem c2_commit_checkout_reads_post_values {g : LmdbGlobalState}
    {m : Key → Option Value} {R : Digest}
    (hs : WfStore g.trieStore) (h : RootCanon g.trieStore R m)
    (effects : List (Key × Transform))
    (hnodup : (effects.map Prod.fst).Nodup)
    (cid : CorrelationId) {R1 : Digest} {g1 : LmdbGlobalState}
    (hsucc : stateCommit g cid R effects = (CommitResult.success R1, g1)) :
    ∃ view, (checkout g1 R1).1 = some view ∧
      ∀ cid2 k v, (k, Transform.write v) ∈ effects →
        (stateRead g1 view cid2 k).1 = FacadeRead.ok (some v) := by
  cases hq : commitOp cid g.trieStore R effects with
  | mk r0 s0 =>
    rw [stateCommit, hq] at hsucc
    obtain ⟨hr0, hg1⟩ := Prod.mk.inj hsucc
    subst hr0
    have hgo : commitGo g.trieStore R effects = .ok (s0, R1) :=
      commitOp_success_inv hq
    obtain ⟨hwf1, hgrow, m', hrc', hin, hout⟩ :=
      commitGo_correct effects g.trieStore R m hs h hnodup s0 R1 hgo
    have hfr : s0.find R1 = some R1 := by
      rcases hrc' with ⟨_, hfx, _⟩ | ⟨hfx, _⟩ <;> exact hfx
    have hstore : g1.trieStore = s0 := by rw [← hg1]
    refine ⟨⟨R1⟩, ?_, ?_⟩
    · simp only [checkout, hstore, hfr]
    · intro cid2 k v hkv
      obtain ⟨cv, happ, hm'⟩ := hin k (Transform.write v) hkv
      have hcv : cv = v := by
        have hav : applyTransform (Transform.write v) (m k) = .ok v := by
          cases m k <;> rfl
        rw [hav] at happ
        injection happ with h2
        exact h2.symm
      subst hcv
      have hread := read_correct hrc' k
      rw [hm'] at hread
      simp only [stateRead, hstore]
      rw [hread]

/-- C3: after a successful later commit against `R0` producing a new root,
the old root still checks out, every read through a reader at `R0` is
unchanged, and a key absent under `R0` (for instance one first introduced
by that commit) still reads as `None` at `R0`. -/
theorem c3_old_root_view_unchanged {g : LmdbGlobalState}
    {m0 : Key → Option Value} {R0 : Digest}
    (hs : WfStore g.trieStore) (h0 : RootCanon g.trieStore R0 m0)
    (effects : List (Key × Transform))
    (hnodup : (effects.map Prod.fst).Nodup)
    (cid : CorrelationId) {R1 : Digest} {g1 : LmdbGlobalState}
    (hsucc : stateCommit g cid R0 effects = (CommitResult.success R1, g1))
    (_hne : R1 ≠ R0) :
    (checkout g1 R0).1 = some ⟨R0⟩ ∧
    (∀ cid2 k, (stateRead g1 ⟨R0⟩ cid2 k).1 = (stateRead g ⟨R0⟩ cid2 k).1) ∧
    (∀ cid2 k v, (k, Transform.write v) ∈ effects → m0 k = none →
      (stateRead g1 ⟨R0⟩ cid2 k).1 = FacadeRead.ok none) := by
  cases hq : commitOp cid g.trieStore R0 effects with
  | mk r0 s0 =>
    rw [stateCommit, hq] at hsucc
    obtain ⟨hr0, hg1⟩ := Prod.mk.inj hsucc
    subst hr0
    have hgo : commitGo g.trieStore R0 effects = .ok (s0, R1) :=
      commitOp_success_inv hq
    obtain ⟨hwf1, hgrow, m', hrc', hin, hout⟩ :=
      commitGo_correct effects g.trieStore R0 m0 hs h0 hnodup s0 R1 hgo
    have hstore : g1.trieStore = s0 := by rw [← hg1]
    have h0' : RootCanon s0 R0 m0 := rootCanon_mono hgrow h0
    have hf0 : s0.find R0 = some R0 := by
      rcases h0' with ⟨_, hfx, _⟩ | ⟨hfx, _⟩ <;> exact hfx
    have hreads : ∀ cid2 k, (stateRead g1 ⟨R0⟩ cid2 k).1 = (stateRead g ⟨R0⟩ cid2 k).1 := by
      intro cid2 k
      have hr1 := read_correct h0' k
      have hr2 := read_correct h0 k
      simp only [stateRead, hstore]
      rw [hr1, hr2]
    refine ⟨?_, hreads, ?_⟩
    · simp only [checkout, hstore, hf0]
    · intro cid2 k v _ hnone
      have hr1 := read_correct h0' k
      rw [hnone] at hr1
      simp only [stateRead, hstore]
      rw [hr1]

/-- C7: two commit invocations with equal prestate root and effects lists
equal as multisets — whatever their iteration order and correlation ids —
produce the same state root; the correlation id is never consulted. -/
theorem c7_commit_deterministic {s : Store} {R : Digest} {m : Key → Option Value}
    (hs : WfStore s) (h : RootCanon s R m)
    (l1 l2 : List (Key × Transform)) (hperm : l1.Perm l2)
    (hnodup : (l1.map Prod.fst).Nodup)
    (cid1 cid2 : CorrelationId)
    {r1 : Digest} {s1 : Store} {r2 : Digest} {s2 : Store}
    (h1 : commitOp cid1 s R l1 = (CommitResult.success r1, s1))
    (h2 : commitOp cid2 s R l2 = (CommitResult.success r2, s2)) :
    r1 = r2 := by
  have hnodup2 : (l2.map Prod.fst).Nodup := ((hperm.map Prod.fst).nodup_iff).mp hnodup
  have hg1 := commitOp_success_inv h1
  have hg2 := commitOp_success_inv h2
  obtain ⟨_, _, m1, hrc1, hin1, hout1⟩ :=
    commitGo_correct l1 s R m hs h hnodup s1 r1 hg1
  obtain ⟨_, _, m2, hrc2, hin2, hout2⟩ :=
    commitGo_correct l2 s R m hs h hnodup2 s2 r2 hg2
  have hm : m1 = m2 := by
    funext k
    by_cases hk : ∃ tf, (k, tf) ∈ l1
    · obtain ⟨tf, hmem⟩ := hk
      obtain ⟨cv1, ha1, hb1⟩ := hin1 k tf hmem
      obtain ⟨cv2, ha2, hb2⟩ := hin2 k tf (hperm.mem_iff.mp hmem)
      rw [ha1] at ha2
      injection ha2 with hcv
      rw [hb1, hb2, hcv]
    · push_neg at hk
      rw [hout1 k hk, hout2 k (fun tf h2m => hk tf (hperm.mem_iff.mpr h2m))]
  exact rootCanon_unique hrc1 (hm ▸ hrc2)

/-- C1 (amended): copying every node reachable from `R` except one —
whose entry is instead a syntactically valid node not hashing to its
storage key `bad`, *and every digest referenced by that replacement node
is itself present in the destination* — makes
`missing_descendant_trie_keys(dest, R)` return exactly `[bad]`, and
rehashing the stored node yields a digest different from `bad`. -/
theorem c1_single_corrupt_entry_detected {src dest : Store} {root bad : Digest}
    {tbad : Trie}
    (hsrc : ∀ d, Reaches src root d → src.find d = some d)
    (hreach : Reaches src root bad)
    (hcopy : ∀ d, Reaches src root d → d ≠ bad → dest.find d = some d)
    (honly : ∀ d, dest.find d ≠ none → Reaches src root d)
    (hbadentry : dest.find bad = some tbad)
    (hbadhash : trieHash tbad ≠ bad)
    (hchildren : ∀ c, c ∈ childDigests tbad → dest.find c ≠ none) :
    missingDescendantTrieKeys dest root = [bad] ∧
      ∃ t, dest.find bad = some t ∧ trieHash t ≠ bad := by
  obtain ⟨hnd, hmem⟩ := mdtk_spec dest root
  refine ⟨eq_singleton_of_nodup hnd ?_, tbad, hbadentry, hbadhash⟩
  intro x
  rw [hmem x]
  constructor
  · rintro ⟨hrx, hbx⟩
    rcases dest_reach_inv hsrc hcopy honly hbadentry hchildren x hrx with hx | hx
    · exact hx
    · exact absurd rfl (hbx x hx)
  · rintro rfl
    refine ⟨?_, ?_⟩
    · rcases reaches_dest_or_bad hsrc hcopy x hreach with hx | hx <;> exact hx
    · intro t ht
      rw [hbadentry] at ht
      injection ht with ht2
      rw [← ht2]
      exact hbadhash

/-- C6: once every node reachable from `R` in the source has been
`put_trie`'d into a well-formed destination store, the destination's
`missing_descendant_trie_keys(R)` is empty and the key sets enumerable
under `R` agree between source and destination. -/
theorem c6_full_copy_complete_and_key_sets_equal {src dest : Store} {R : Digest}
    (hsrc : ∀ d, Reaches src R d → src.find d = some d)
    (hwf : WfStore dest)
    (hput : ∀ d, Reaches src R d → (dest.find d).isSome) :
    missingDescendantTrieKeys dest R = [] ∧ keysOp dest R = keysOp src R := by
  have hcopy : ∀ d, Reaches src R d → dest.find d = src.find d := by
    intro d hd
    cases hfd : dest.find d with
    | none =>
      have := hput d hd
      rw [hfd] at this
      cases this
    | some y =>
      have hy : trieHash y = d := hwf d y hfd
      rw [hsrc d hd]
      rw [← hy]
      rfl
  constructor
  · rw [List.eq_nil_iff_forall_not_mem]
    intro d hd
    obtain ⟨_, hmem⟩ := mdtk_spec dest R
    rw [hmem] at hd
    obtain ⟨hrd, hbd⟩ := hd
    have hrs := Reaches_of_agree hcopy d hrd
    exact hbd d (by rw [hcopy d hrs]; exact hsrc d hrs) rfl
  · exact keysOp_agree hcopy

/-! ## Concrete instances

A two-node one-key state (an extension above a single leaf), the empty
state, and small effect lists, used to exercise the theorems above on
closed inputs. -/

def keyZ : Key := ⟨List.replicate 32 (0 : Byte), by simp⟩

def keyO : Key := ⟨(1 : Byte) :: List.replicate 31 (0 : Byte), by simp⟩

def vZ : Value := Value.int32 0

def vC : Value := Value.int32 7

def leafZ : Trie := Trie.leaf keyZ vZ

def leafX : Trie := Trie.leaf keyZ (Value.int32 1)

def rootZ : Trie := Trie.ext (List.replicate 32 (0 : Byte)) true leafZ

def srcZ : Store := [(rootZ, rootZ), (leafZ, leafZ)]

def tbadZ : Trie := Trie.ext (List.replicate 32 (0 : Byte)) true leafX

def destZ : Store := [(rootZ, rootZ), (leafZ, tbadZ)]

def destW : Store := [(rootZ, rootZ), (leafZ, leafX)]

def destF : Store := [(leafZ, leafZ), (rootZ, rootZ)]

def s0C : Store := [(emptyTrie, emptyTrie)]

def gEmptyC : LmdbGlobalState := ⟨s0C, [], emptyTrie⟩

def effC : List (Key × Transform) := [(keyZ, Transform.write vC)]

def rootC1 : Digest := singletonTrie (keyPath keyZ) keyZ vC

def s1C : Store := s0C.putAll (singletonFresh (keyPath keyZ) keyZ vC)

def g1C : LmdbGlobalState := ⟨s1C, [], emptyTrie⟩

theorem wf_s0C : WfStore s0C := wfStore_of_forall (by decide)

theorem rootCanon_s0C : RootCanon s0C emptyTrie emptyMap :=
  Or.inl ⟨rfl, by decide, rfl⟩

theorem find_s0C : s0C.find emptyTrie = some emptyTrie := by decide

theorem readOp_s0C (k : Key) : readOp s0C emptyTrie k = ReadResult.notFound := by
  unfold readOp
  rw [find_s0C]
  exact readAt_emptyTrie s0C k

theorem write_s0C (k : Key) (v : Value) :
    write s0C emptyTrie k v =
      (WriteOutcome.written (singletonTrie (keyPath k) k v),
        s0C.putAll (singletonFresh (keyPath k) k v)) := by
  unfold write
  rw [find_s0C]
  dsimp only
  rw [if_pos rfl]
  rfl

theorem commitGo_single (k : Key) (v : Value) :
    commitGo s0C emptyTrie [(k, Transform.write v)] =
      .ok (s0C.putAll (singletonFresh (keyPath k) k v),
        singletonTrie (keyPath k) k v) := by
  rw [commitGo]
  rw [readOp_s0C k]
  dsimp only
  rw [show applyTransform (Transform.write v) none = Except.ok v from rfl]
  dsimp only
  rw [write_s0C k v]
  dsimp only
  rw [commitGo]

theorem commitOp_single (cid : CorrelationId) (k : Key) (v : Value) :
    commitOp cid s0C emptyTrie [(k, Transform.write v)] =
      (CommitResult.success (singletonTrie (keyPath k) k v),
        s0C.putAll (singletonFresh (keyPath k) k v)) := by
  unfold commitOp
  rw [find_s0C]
  dsimp only
  rw [commitGo_single k v]

theorem stateCommit_single (cid : CorrelationId) :
    stateCommit gEmptyC cid emptyTrie effC = (CommitResult.success rootC1, g1C) := by
  unfold stateCommit
  have hg : gEmptyC.trieStore = s0C := rfl
  rw [hg]
  rw [show effC = [(keyZ, Transform.write vC)] from rfl]
  rw [commitOp_single cid keyZ vC]
  rfl

/-- Witness: committing one write effect on the empty state checks out at
the returned root and reads back the written value. -/
theorem c2_commit_checkout_reads_post_values_witness :
    ∃ view, (checkout g1C rootC1).1 = some view ∧
      ∀ cid2 k v, (k, Transform.write v) ∈ effC →
        (stateRead g1C view cid2 k).1 = FacadeRead.ok (some v) := by
  have hsucc : stateCommit gEmptyC 0 emptyTrie effC = (CommitResult.success rootC1, g1C) :=
    stateCommit_single 0
  exact c2_commit_checkout_reads_post_values wf_s0C rootCanon_s0C effC (by decide) 0 hsucc

/-- Witness: after the same commit the empty root still checks out and
reads exactly as before. -/
theorem c3_old_root_view_unchanged_witness :
    (checkout g1C emptyTrie).1 = some ⟨emptyTrie⟩ ∧
    (∀ cid2 k, (stateRead g1C ⟨emptyTrie⟩ cid2 k).1 = (stateRead gEmptyC ⟨emptyTrie⟩ cid2 k).1) ∧
    (∀ cid2 k v, (k, Transform.write v) ∈ effC → emptyMap k = none →
      (stateRead g1C ⟨emptyTrie⟩ cid2 k).1 = FacadeRead.ok none) := by
  have hsucc : stateCommit gEmptyC 0 emptyTrie effC = (CommitResult.success rootC1, g1C) :=
    stateCommit_single 0
  exact c3_old_root_view_unchanged wf_s0C rootCanon_s0C effC (by decide) 0 hsucc (by decide)

/-- Witness: checkout of an absent digest yields `None`, of the present
empty root yields a reader bound to it. -/
theorem c4_checkout_absent_none_present_reader_witness :
    (checkout gEmptyC rootZ).1 = none ∧
    (checkout gEmptyC emptyTrie).1 = some ⟨emptyTrie⟩ :=
  ⟨(c4_checkout_absent_none_present_reader gEmptyC rootZ).1 (by decide),
   (c4_checkout_absent_none_present_reader gEmptyC emptyTrie).2 emptyTrie (by decide)⟩

/-- Witness: a reader checked out at the empty root of the empty state
never sees `RootNotFound` and never panics. -/
theorem c5_reader_panic_unreachable_witness :
    readOp gEmptyC.trieStore (LmdbGlobalStateView.mk emptyTrie).rootHash keyZ ≠
      ReadResult.rootNotFound ∧
    readWithProof gEmptyC.trieStore (LmdbGlobalStateView.mk emptyTrie).rootHash keyZ ≠
      ProofReadResult.rootNotFound ∧
    (stateRead gEmptyC ⟨emptyTrie⟩ 0 keyZ).1 ≠ FacadeRead.panicked ∧
    (stateReadWithProof gEmptyC ⟨emptyTrie⟩ 0 keyZ).1 ≠ FacadeProofRead.panicked :=
  c5_reader_panic_unreachable
    (show (checkout gEmptyC emptyTrie).1 = some ⟨emptyTrie⟩ from rfl)
    gEmptyC (fun _ _ h => h) 0 keyZ

theorem wf_srcZ : WfStore srcZ := wfStore_of_forall (by decide)

theorem canon_srcZ : Canon srcZ [] rootZ (singleMap keyZ vZ) :=
  @canon_singleton srcZ [] (List.replicate 32 (0 : Byte)) keyZ vZ rfl (by decide)

theorem rootCanon_srcZ : RootCanon srcZ rootZ (singleMap keyZ vZ) :=
  Or.inr ⟨by decide, canon_srcZ⟩

/-- Witness: writing the already-present `(keyZ, vZ)` pair into the
one-key state returns `AlreadyExists` with the store untouched. -/
theorem c8_write_existing_pair_allocates_nothing_witness :
    write srcZ rootZ keyZ vZ = (WriteOutcome.alreadyExists, srcZ) :=
  c8_write_existing_pair_allocates_nothing wf_srcZ rootCanon_srcZ keyZ vZ (by decide)

/-- In the one-key source state the reachable digests are exactly the root
and its leaf. -/
theorem reaches_srcZ_inv : ∀ d, Reaches srcZ rootZ d → d = rootZ ∨ d = leafZ := by
  intro d h
  induction h with
  | refl => exact Or.inl rfl
  | step hr hfind hc ih =>
    rename_i d0 t c
    rcases ih with h0 | h0
    · rw [h0] at hfind
      rw [show srcZ.find rootZ = some rootZ from by decide] at hfind
      injection hfind with ht
      rw [← ht] at hc
      rw [show childDigests rootZ = [leafZ] from by decide] at hc
      exact Or.inr (List.mem_singleton.mp hc)
    · rw [h0] at hfind
      rw [show srcZ.find leafZ = some leafZ from by decide] at hfind
      injection hfind with ht
      rw [← ht] at hc
      rw [show childDigests leafZ = [] from rfl] at hc
      cases hc

theorem srcZ_complete : ∀ d, Reaches srcZ rootZ d → srcZ.find d = some d := by
  intro d h
  rcases reaches_srcZ_inv d h with rfl | rfl
  · decide
  · decide

theorem reaches_srcZ_leafZ : Reaches srcZ rootZ leafZ :=
  @Reaches.step srcZ rootZ rootZ rootZ leafZ Reaches.refl (by decide) (by decide)

/-- A copy of the one-key state with the leaf's entry replaced by a
wrongly hashed extension pointing at an absent digest makes
`missing_descendant_trie_keys` report more than the corrupt key: the
claim's conclusion fails without the amendment that the replacement
node's referenced digests be present. -/
theorem c1_claim_counterexample :
    (∀ d, Reaches srcZ rootZ d → srcZ.find d = some d) ∧
    Reaches srcZ rootZ leafZ ∧
    (∀ d, Reaches srcZ rootZ d → d ≠ leafZ → destZ.find d = some d) ∧
    (∀ d, destZ.find d ≠ none → Reaches srcZ rootZ d) ∧
    destZ.find leafZ = some tbadZ ∧
    trieHash tbadZ ≠ leafZ ∧
    missingDescendantTrieKeys destZ rootZ ≠ [leafZ] := by
  refine ⟨srcZ_complete, reaches_srcZ_leafZ, ?_, ?_, by decide, by decide, ?_⟩
  · intro d h hne
    rcases reaches_srcZ_inv d h with rfl | rfl
    · decide
    · exact absurd rfl hne
  · intro d h
    by_cases h1 : d = rootZ
    · rw [h1]
      exact Reaches.refl
    · by_cases h2 : d = leafZ
      · rw [h2]
        exact reaches_srcZ_leafZ
      · exfalso
        apply h
        simp [destZ, h1, h2]
  · intro hEq
    obtain ⟨_, hmem⟩ := mdtk_spec destZ rootZ
    have s1 : destZ.find rootZ = some rootZ := by decide
    have m1 : leafZ ∈ childDigests rootZ := by decide
    have s2 : destZ.find leafZ = some tbadZ := by decide
    have m2 : leafX ∈ childDigests tbadZ := by decide
    have hrx : Reaches destZ rootZ leafX :=
      Reaches.step (Reaches.step Reaches.refl s1 m1) s2 m2
    have hbx : badAt destZ leafX := badAt_of_none (by decide)
    have hin : leafX ∈ missingDescendantTrieKeys destZ rootZ := (hmem leafX).mpr ⟨hrx, hbx⟩
    rw [hEq] at hin
    exact absurd (List.mem_singleton.mp hin) (by decide)

/-- Witness for the amended claim: replacing the leaf's entry by a
wrongly hashed childless node makes exactly that key the one missing
digest. -/
theorem c1_single_corrupt_entry_detected_witness :
    missingDescendantTrieKeys destW rootZ = [leafZ] ∧
      ∃ t, destW.find leafZ = some t ∧ trieHash t ≠ leafZ := by
  refine c1_single_corrupt_entry_detected srcZ_complete reaches_srcZ_leafZ
    ?_ ?_ (show destW.find leafZ = some leafX from by decide) (by decide) ?_
  · intro d h hne
    rcases reaches_srcZ_inv d h with rfl | rfl
    · decide
    · exact absurd rfl hne
  · intro d h
    by_cases h1 : d = rootZ
    · rw [h1]
      exact Reaches.refl
    · by_cases h2 : d = leafZ
      · rw [h2]
        exact reaches_srcZ_leafZ
      · exfalso
        apply h
        simp [destW, h1, h2]
  · intro c hc
    rw [show childDigests leafX = [] from rfl] at hc
    cases hc

/-- Witness: copying both reachable nodes of the one-key state into a
well-formed store leaves nothing missing and preserves the key set. -/
theorem c6_full_copy_complete_and_key_sets_equal_witness :
    missingDescendantTrieKeys destF rootZ = [] ∧ keysOp destF rootZ = keysOp srcZ rootZ := by
  refine c6_full_copy_complete_and_key_sets_equal srcZ_complete
    (wfStore_of_forall (by decide)) ?_
  intro d h
  rcases reaches_srcZ_inv d h with rfl | rfl
  · decide
  · decide

/-! ### Two-key commits in both orders -/

def vA : Value := Value.int32 3

def vB : Value := Value.int32 4

def leafA : Trie := Trie.leaf keyZ vA

def leafB : Trie := Trie.leaf keyO vB

def extA31 : Trie := Trie.ext (List.replicate 31 (0 : Byte)) true leafA

def extB31 : Trie := Trie.ext (List.replicate 31 (0 : Byte)) true leafB

def l1C : List (Key × Transform) := [(keyZ, Transform.write vA), (keyO, Transform.write vB)]

def l2C : List (Key × Transform) := [(keyO, Transform.write vB), (keyZ, Transform.write vA)]

def rootA : Digest := singletonTrie (keyPath keyZ) keyZ vA

def rootB : Digest := singletonTrie (keyPath keyO) keyO vB

def s1A : Store := s0C.putAll (singletonFresh (keyPath keyZ) keyZ vA)

def s1B : Store := s0C.putAll (singletonFresh (keyPath keyO) keyO vB)

def branch01 : Trie :=
  Trie.node (setSlot (setSlot emptySlots 0 (false, extA31)) 1 (false, extB31))

def branch10 : Trie :=
  Trie.node (setSlot (setSlot emptySlots 1 (false, extB31)) 0 (false, extA31))

def s2A : Store := s1A.putAll [branch01, branch01, extA31, extB31, leafB]

def s2B : Store := s1B.putAll [branch10, branch10, extB31, extA31, leafA]

theorem find_s1A_rootA : s1A.find rootA = some rootA := by decide

theorem find_s1B_rootB : s1B.find rootB = some rootB := by decide

theorem readOp_s1A_keyO : readOp s1A rootA keyO = ReadResult.notFound := by
  unfold readOp
  rw [find_s1A_rootA]
  show readAt s1A (Trie.ext (List.replicate 32 (0 : Byte)) true leafA) (keyPath keyO) keyO = _
  rw [readAt]
  rw [dif_neg (by decide)]

theorem readOp_s1B_keyZ : readOp s1B rootB keyZ = ReadResult.notFound := by
  unfold readOp
  rw [find_s1B_rootB]
  show readAt s1B (Trie.ext (keyPath keyO) true leafB) (keyPath keyZ) keyZ = _
  rw [readAt]
  rw [dif_neg (by decide)]

theorem writeAt_s1A_eval :
    writeAt s1A rootA (keyPath keyO) keyO vB =
      WriteRes.upd branch01 [branch01, branch01, extA31, extB31, leafB] := by
  show writeAt s1A (Trie.ext (List.replicate 32 (0 : Byte)) true leafA) (keyPath keyO) keyO vB = _
  rw [writeAt]
  dsimp only
  rw [dif_neg (by decide)]
  rw [show findDiff (List.replicate 32 (0 : Byte)) (keyPath keyO) = some 0 from by decide]
  dsimp only
  rw [show (List.replicate 32 (0 : Byte)).get? 0 = some (0 : Byte) from by decide]
  rw [show (keyPath keyO).get? 0 = some (1 : Byte) from by decide]
  dsimp only
  rw [if_neg (by decide), if_neg (by decide)]
  decide

theorem writeAt_s1B_eval :
    writeAt s1B rootB (keyPath keyZ) keyZ vA =
      WriteRes.upd branch10 [branch10, branch10, extB31, extA31, leafA] := by
  show writeAt s1B (Trie.ext (keyPath keyO) true leafB) (keyPath keyZ) keyZ vA = _
  rw [writeAt]
  dsimp only
  rw [dif_neg (by decide)]
  rw [show findDiff (keyPath keyO) (keyPath keyZ) = some 0 from by decide]
  dsimp only
  rw [show (keyPath keyO).get? 0 = some (1 : Byte) from by decide]
  rw [show (keyPath keyZ).get? 0 = some (0 : Byte) from by decide]
  dsimp only
  rw [if_neg (by decide), if_neg (by decide)]
  decide

theorem write_s1A : write s1A rootA keyO vB = (WriteOutcome.written branch01, s2A) := by
  unfold write
  rw [find_s1A_rootA]
  dsimp only
  rw [if_neg (by decide : ¬ rootA = emptyTrie)]
  rw [writeAt_s1A_eval]
  rfl

theorem write_s1B : write s1B rootB keyZ vA = (WriteOutcome.written branch10, s2B) := by
  unfold write
  rw [find_s1B_rootB]
  dsimp only
  rw [if_neg (by decide : ¬ rootB = emptyTrie)]
  rw [writeAt_s1B_eval]
  rfl

theorem commitGo_l1C : commitGo s0C emptyTrie l1C = .ok (s2A, branch01) := by
  rw [show l1C = (keyZ, Transform.write vA) :: [(keyO, Transform.write vB)] from rfl]
  rw [commitGo]
  rw [readOp_s0C keyZ]
  dsimp only
  rw [show applyTransform (Transform.write vA) none = Except.ok vA from rfl]
  dsimp only
  rw [write_s0C keyZ vA]
  dsimp only
  rw [commitGo]
  rw [show readOp (s0C.putAll (singletonFresh (keyPath keyZ) keyZ vA))
      (singletonTrie (keyPath keyZ) keyZ vA) keyO = ReadResult.notFound from readOp_s1A_keyO]
  dsimp only
  rw [show applyTransform (Transform.write vB) none = Except.ok vB from rfl]
  dsimp only
  rw [show write (s0C.putAll (singletonFresh (keyPath keyZ) keyZ vA))
      (singletonTrie (keyPath keyZ) keyZ vA) keyO vB =
      (WriteOutcome.written branch01, s2A) from write_s1A]
  dsimp only
  rw [commitGo]

theorem commitGo_l2C : commitGo s0C emptyTrie l2C = .ok (s2B, branch10) := by
  rw [show l2C = (keyO, Transform.write vB) :: [(keyZ, Transform.write vA)] from rfl]
  rw [commitGo]
  rw [readOp_s0C keyO]
  dsimp only
  rw [show applyTransform (Transform.write vB) none = Except.ok vB from rfl]
  dsimp only
  rw [write_s0C keyO vB]
  dsimp only
  rw [commitGo]
  rw [show readOp (s0C.putAll (singletonFresh (keyPath keyO) keyO vB))
      (singletonTrie (keyPath keyO) keyO vB) keyZ = ReadResult.notFound from readOp_s1B_keyZ]
  dsimp only
  rw [show applyTransform (Transform.write vA) none = Except.ok vA from rfl]
  dsimp only
  rw [show write (s0C.putAll (singletonFresh (keyPath keyO) keyO vB))
      (singletonTrie (keyPath keyO) keyO vB) keyZ vA =
      (WriteOutcome.written branch10, s2B) from write_s1B]
  dsimp only
  rw [commitGo]

theorem commitOp_l1C (cid : CorrelationId) :
    commitOp cid s0C emptyTrie l1C = (CommitResult.success branch01, s2A) := by
  unfold commitOp
  rw [find_s0C]
  dsimp only
  rw [commitGo_l1C]

theorem commitOp_l2C (cid : CorrelationId) :
    commitOp cid s0C emptyTrie l2C = (CommitResult.success branch10, s2B) := by
  unfold commitOp
  rw [find_s0C]
  dsimp only
  rw [commitGo_l2C]

/-- Witness: the same two write effects committed in both orders, under
different correlation ids, reach the same state root. -/
theorem c7_commit_deterministic_witness :
    commitOp 3 s0C emptyTrie l1C = (CommitResult.success branch01, s2A) ∧
    commitOp 4 s0C emptyTrie l2C = (CommitResult.success branch10, s2B) ∧
    branch01 = branch10 := by
  have h1 : commitOp 3 s0C emptyTrie l1C = (CommitResult.success branch01, s2A) :=
    commitOp_l1C 3
  have h2 : commitOp 4 s0C emptyTrie l2C = (CommitResult.success branch10, s2B) :=
    commitOp_l2C 4
  exact ⟨h1, h2,
    c7_commit_deterministic wf_s0C rootCanon_s0C l1C l2C (by decide) (by decide) 3 4 h1 h2⟩
